import Mathlib

/-!
# Verification of `tools/generate_building_hooks.py`

Shallow embedding of the tokenizer, block parser, raw-text locator, hook
injector, classifier and init-effects emitter of
`tools/generate_building_hooks.py`, together with theorems settling the
frozen claims about them.

Text is modelled as `List Char`; Python token streams are `List String`
(the Python tokenizer yields plain strings, with no tag distinguishing a
quoted string from a brace token).  Functions that can raise in Python
(`IndexError` on a trailing `=`, `ValueError` from `str.rindex`) return
`Option`, with `none` modelling the raised exception.
-/

namespace EPBM

abbrev Text := List Char

/-- Characters the tokenizer's scanner skips as whitespace
(`text[i] in " \t\r\n"`). -/
def isSpaceTok (c : Char) : Bool :=
  c = ' ' || c = '\t' || c = '\r' || c = '\n'

/-- Characters matched by the regex class `\s` in the C0/ASCII range, used
by the `\s*` parts of the header patterns.  (Unicode whitespace above
U+001F other than `' '` is outside the model; the scanned scripts are
ASCII.) -/
def isSpaceRe (c : Char) : Bool :=
  c = ' ' || c = '\t' || c = '\n' || c = '\r' || c = '\x0b' || c = '\x0c'
    || c = '\x1c' || c = '\x1d' || c = '\x1e' || c = '\x1f'

/-- `strip_bom`: `text.lstrip` on the BOM removes every leading BOM char. -/
def strip_bom (t : Text) : Text :=
  t.dropWhile (fun c => c = '\uFEFF')

/-- `strip_comments`, restructured from the per-line loop of the source into
a single char-at-a-time scan.  State: `inq` = inside a quote on the current
line, `inc` = the rest of the current line is a comment.  A newline resets
both flags, exactly as the source restarts `in_quote = False` per line and
`break` only skips to the end of the line. -/
def strip_comments : Text → Bool → Bool → Text
  | [], _, _ => []
  | c :: rest, inq, inc =>
    if c = '\n' then c :: strip_comments rest false false
    else if inc then strip_comments rest inq true
    else if c = '"' then c :: strip_comments rest (!inq) false
    else if c = '#' && !inq then strip_comments rest inq true
    else c :: strip_comments rest inq false

/-- Scanner state of `tokenize`'s main loop: between tokens, inside an
unquoted token (accumulated reversed), inside a quoted string, or inside a
quoted string right after a backslash. -/
inductive TMode : Type
  | norm : TMode
  | word : List Char → TMode
  | quot : List Char → TMode
  | quotEsc : List Char → TMode

/-- The character-consuming loop of `tokenize` (after BOM/comment
stripping), restructured as a state machine over `TMode`.  Mirrors the
source: quoted strings yield `text[i+1:j]` (content only, quotes stripped,
a backslash and the character after it both kept in the content); `{`, `}`,
`=` are single-character tokens; a bare word is a maximal run of characters
excluding whitespace, braces, `=` and `"`.  An unterminated quote consumes
to end of input. -/
def scanT : Text → TMode → List String
  | [], .norm => []
  | [], .word acc => [String.mk acc.reverse]
  | [], .quot acc => [String.mk acc.reverse]
  | [], .quotEsc acc => [String.mk acc.reverse]
  | c :: rest, .norm =>
    if isSpaceTok c then scanT rest .norm
    else if c = '"' then scanT rest (.quot [])
    else if c = '{' || c = '}' || c = '=' then String.mk [c] :: scanT rest .norm
    else scanT rest (.word [c])
  | c :: rest, .word acc =>
    if isSpaceTok c then String.mk acc.reverse :: scanT rest .norm
    else if c = '"' then String.mk acc.reverse :: scanT rest (.quot [])
    else if c = '{' || c = '}' || c = '=' then
      String.mk acc.reverse :: String.mk [c] :: scanT rest .norm
    else scanT rest (.word (c :: acc))
  | c :: rest, .quot acc =>
    if c = '"' then String.mk acc.reverse :: scanT rest .norm
    else if c = '\\' then scanT rest (.quotEsc (c :: acc))
    else scanT rest (.quot (c :: acc))
  | c :: rest, .quotEsc acc => scanT rest (.quot (c :: acc))

/-- `tokenize(text)`: strip the BOM, strip comments, then scan. -/
def tokenize (t : Text) : List String :=
  scanT (strip_comments (strip_bom t) false false) .norm

/-- The parsed value attached to a key: a scalar token, a bare flag
(`True` in the source), a nested block (`OrderedDict`), or the list a key's
storage is promoted to on its second occurrence. -/
inductive Value : Type
  | scalar : String → Value
  | flag : Value
  | block : List (String × Value) → Value
  | repeated : List Value → Value

/-- The Document model: an insertion-ordered `key -> Value` map
(`OrderedDict`), as an association list. -/
abbrev Doc := List (String × Value)

/-- First-match association lookup (`key in result` / `result[key]`). -/
def lookupD : List (String × α) → String → Option α
  | [], _ => none
  | (k', v) :: rest, k => if k' = k then some v else lookupD rest k

/-- `OrderedDict` assignment: replace the value in place if the key exists
(keeping its position), else append at the end. -/
def dictSet : List (String × α) → String → α → List (String × α)
  | [], k, v => [(k, v)]
  | (k', v') :: rest, k, v =>
    if k' = k then (k, v) :: rest else (k', v') :: dictSet rest k v

/-- The duplicate-key storage rule shared by `parse_block` and
`parse_file`: first occurrence stores the bare value; the second converts
storage to a two-element list `[old, new]`; later occurrences append. -/
def storeDup (d : Doc) (k : String) (v : Value) : Doc :=
  match lookupD d k with
  | none => d ++ [(k, v)]
  | some (Value.repeated l) => dictSet d k (Value.repeated (l ++ [v]))
  | some old => dictSet d k (Value.repeated [old, v])

/-- The body loop of `parse_block` (the source's `while idx < len(tokens)`
loop after the opening `{` is consumed), with explicit fuel so that the
definition is structurally recursive and kernel-evaluable.  The input list
is the token suffix after the `{`.  Result: the built document and the
suffix after the consumed closing `}` (or after end of input).  `none`
models the `IndexError` the source raises when a key's `=` is the final
token (`val = tokens[idx]` with `idx == len(tokens)`), or exhausted fuel
(shown never to occur for fuel greater than the token count). -/
def pbb : Nat → List String → Doc → Option (Doc × List String)
  | 0, _, _ => none
  | _ + 1, [], acc => some (acc, [])
  | n + 1, key :: rest, acc =>
    if key = "\x7d" then some (acc, rest)
    else
      match rest with
      | [] => pbb n [] (storeDup acc key Value.flag)
      | t1 :: rest2 =>
        if t1 = "=" then
          match rest2 with
          | [] => none
          | t2 :: rest3 =>
            if t2 = "\x7b" then
              match pbb n rest3 [] with
              | none => none
              | some (val, rest4) => pbb n rest4 (storeDup acc key (Value.block val))
            else pbb n rest3 (storeDup acc key (Value.scalar t2))
        else pbb n (t1 :: rest2) (storeDup acc key Value.flag)

/-- `parse_block` applied just after its `assert tokens[idx] == '{'` and
`idx += 1`: parse the block body from the token suffix following the
opening brace. -/
def parse_block_body (toks : List String) (acc : Doc) : Option (Doc × List String) :=
  pbb (toks.length + 1) toks acc

/-- The top-level loop of `parse_file` over an already-tokenized list, with
fuel (same conventions as `pbb`).  Unlike the block body, it has no `}`
case: a stray top-level `}` is read as an ordinary key. -/
def ptop : Nat → List String → Doc → Option Doc
  | 0, _, _ => none
  | _ + 1, [], acc => some acc
  | n + 1, key :: rest, acc =>
    match rest with
    | [] => ptop n [] (storeDup acc key Value.flag)
    | t1 :: rest2 =>
      if t1 = "=" then
        match rest2 with
        | [] => none
        | t2 :: rest3 =>
          if t2 = "\x7b" then
            match pbb n rest3 [] with
            | none => none
            | some (val, rest4) => ptop n rest4 (storeDup acc key (Value.block val))
          else ptop n rest3 (storeDup acc key (Value.scalar t2))
      else ptop n (t1 :: rest2) (storeDup acc key Value.flag)

/-- `parse_file` from a token list (the part of the source after
`toks = list(tokenize(text))`). -/
def parse_file_toks (toks : List String) : Option Doc :=
  ptop (toks.length + 1) toks []

/-- `parse_file` on raw text. -/
def parse_file (t : Text) : Option Doc :=
  parse_file_toks (tokenize t)

/-- The tail `\s*\{` of a header pattern: the number of characters
consumed through the `{`, or `none` if it does not match here. -/
def consumeBrace : Text → Option Nat
  | [] => none
  | c :: rest =>
    if c = '{' then some 1
    else if isSpaceRe c then (consumeBrace rest).map (· + 1)
    else none

/-- After the literal part of a header pattern: the regex tail
`\s*=\s*\{`.  Returns the number of characters consumed through the `{`,
or `none` if the pattern does not match here. -/
def consumeEqBrace : Text → Option Nat
  | [] => none
  | c :: rest =>
    if c = '=' then (consumeBrace rest).map (· + 1)
    else if isSpaceRe c then (consumeEqBrace rest).map (· + 1)
    else none

/-- Does the header pattern `lit\s*=\s*\{` match starting at position `i`
of `t`?  If so, return the index of its `{` (the last matched character:
`match.end() - 1`). -/
def headerAt (lit : Text) (t : Text) (i : Nat) : Option Nat :=
  if lit.isPrefixOf (t.drop i) then
    match consumeEqBrace (t.drop (i + lit.length)) with
    | none => none
    | some m => some (i + lit.length + m - 1)
  else none

/-- Leftmost (re.search) match of the unanchored header pattern
`lit\s*=\s*\{`: the smallest start position, with the index of the matched
`{`. -/
def findHeader (lit : Text) (t : Text) : Option (Nat × Nat) :=
  (List.range (t.length + 1)).findSome?
    (fun i => (headerAt lit t i).map (fun b => (i, b)))

/-- Leftmost match of the line-anchored pattern
`^name\s*=\s*\{` under `re.MULTILINE`: the start must be position 0 or
preceded by a newline. -/
def findAnchoredHeader (name : Text) (t : Text) : Option Nat :=
  (List.range (t.length + 1)).find?
    (fun i => decide ((i = 0 ∨ t[i - 1]? = some '\n') ∧ (headerAt name t i).isSome))

/-- `text.index('{', start)`: first index `≥ start` holding `{`. -/
def findBraceFrom (t : Text) (start : Nat) : Option Nat :=
  (List.range t.length).find? (fun i => decide (start ≤ i ∧ t[i]? = some '{'))

/-- The brace-depth loop shared by the locator and the injector: scan the
suffix `l` (whose head sits at absolute index `i`), adding 1 at `{` and
subtracting 1 at `}`, and return the absolute index of the `}` at which the
depth first reaches zero, or `none` if it never does before end of input. -/
def findCloseFrom : Text → Nat → Int → Option Nat
  | [], _, _ => none
  | c :: rest, i, depth =>
    if c = '{' then findCloseFrom rest (i + 1) (depth + 1)
    else if c = '}' then
      if depth - 1 = 0 then some i else findCloseFrom rest (i + 1) (depth - 1)
    else findCloseFrom rest (i + 1) depth

/-- `read_raw_building_text(filepath, building_name)` on the file's text:
strip the BOM, find the first line-anchored `building_name = {` header,
then depth-count from its `{`; the result is `text[start:i+1]`, or `none`
("NotFound") if the header never matches or the depth never returns to
zero.  (The `text.index` call cannot fail once the header matched; the
`none` arm for it is unreachable.) -/
def read_raw_building_text (t0 : Text) (name : Text) : Option Text :=
  let t := strip_bom t0
  match findAnchoredHeader name t with
  | none => none
  | some s =>
    match findBraceFrom t s with
    | none => none
    | some bp =>
      match findCloseFrom (t.drop bp) bp 0 with
      | none => none
      | some j => some ((t.drop s).take (j + 1 - s))

/-! ## Hook injector (`inject_on_built_hook`) -/

/-- The tracking snippet `add_code` spliced into `on_built`. -/
def add_code (listName : String) : Text :=
  ("\n\t\t# EPBM: Track building for maintenance"
    ++ "\n\t\tlocation = \x7b add_to_variable_list = \x7b name = " ++ listName
    ++ " target = prev \x7d \x7d"
    ++ "\n\t\tepbm_on_building_built = yes").toList

/-- The untracking snippet `remove_code` spliced into `on_destroyed`. -/
def remove_code (listName : String) : Text :=
  ("\n\t\t# EPBM: Untrack building"
    ++ "\n\t\tlocation = \x7b remove_list_variable = \x7b name = " ++ listName
    ++ " target = prev \x7d \x7d"
    ++ "\n\t\tepbm_on_building_destroyed = yes").toList

/-- A word character of the regex class `\w` (ASCII range, as used by the
inline-PM renaming pattern). -/
def isWordChar (c : Char) : Bool :=
  c.isAlphanum || c = '_'

/-- Match the tail `\s*\{` of the renaming pattern, returning the matched
text and the remainder. -/
def midAfterEq : Text → Option (Text × Text)
  | [] => none
  | c :: rest =>
    if c = '{' then some ([c], rest)
    else if isSpaceRe c then (midAfterEq rest).map (fun p => (c :: p.1, p.2))
    else none

/-- Match the tail `\s*=\s*\{` of the renaming pattern, returning the
matched text and the remainder. -/
def midFromWs : Text → Option (Text × Text)
  | [] => none
  | c :: rest =>
    if c = '=' then (midAfterEq rest).map (fun p => (c :: p.1, p.2))
    else if isSpaceRe c then (midFromWs rest).map (fun p => (c :: p.1, p.2))
    else none

/-- Try the pattern `(\t\t)(\w+)(\s*=\s*\{)` at the head of the text:
returns the captured name, the matched `\s*=\s*\{` text, and the remainder
after the whole match. -/
def tryPmDef : Text → Option (Text × Text × Text)
  | '\t' :: '\t' :: r2 =>
    let w := r2.takeWhile isWordChar
    if w.isEmpty then none
    else (midFromWs (r2.dropWhile isWordChar)).map (fun p => (w, p.1, p.2))
  | _ => none

/-- The structural keys the renaming must leave untouched. -/
def keepName (w : Text) : Bool :=
  w = "unique_production_methods".toList || w = "category".toList
    || w = "potential".toList || w = "no_upkeep".toList

/-- `pm_def_pattern.sub(rename_pm, upm_block)`: left-to-right,
non-overlapping replacement; a matched inline-PM definition header gets its
name prefixed with `epbm_` unless it is a structural key.  Fuel makes the
scan structurally recursive (each step consumes at least one character, so
`length + 1` fuel is never exhausted). -/
def renameScan : Nat → Text → Text
  | 0, l => l
  | _ + 1, [] => []
  | n + 1, c :: rest =>
    match tryPmDef (c :: rest) with
    | some (w, mid, rest') =>
      '\t' :: '\t' :: ((if keepName w then w else "epbm_".toList ++ w) ++ mid
        ++ renameScan n rest')
    | none => c :: renameScan n rest

/-- The inline-PM renaming step of `inject_on_built_hook`: locate the
`unique_production_methods = {` block (depth-counting from its `{`; if the
depth never returns to zero the block runs to end of text, the source's
`for`/`else`), apply the renaming substitution to that slice, and splice it
back. -/
def rename_upms (raw : Text) : Text :=
  match findHeader "unique_production_methods".toList raw with
  | none => raw
  | some (s, bp) =>
    let upmEnd := match findCloseFrom (raw.drop bp) bp 0 with
      | some i => i + 1
      | none => raw.length
    let blk := (raw.drop s).take (upmEnd - s)
    raw.take s ++ renameScan (blk.length + 1) blk ++ raw.drop upmEnd

/-- The `on_built` splice step: find the first `on_built = {` header,
depth-count to its closing brace, and insert `add_code ++ "\n\t"` before
it; if the header never matches or the block never closes, the text is
unchanged. -/
def inject_built (raw : Text) (addCode : Text) : Text :=
  match findHeader "on_built".toList raw with
  | none => raw
  | some (_, bp) =>
    match findCloseFrom (raw.drop bp) bp 0 with
    | none => raw
    | some i => raw.take i ++ addCode ++ "\n\t".toList ++ raw.drop i

/-- Substring containment (Python's `in` on strings). -/
def hasSubstr (t pat : Text) : Bool :=
  (List.range (t.length + 1)).any (fun i => pat.isPrefixOf (t.drop i))

/-- `raw_text.rindex('}')`: index of the last `}`, `none` when absent
(Python raises `ValueError`). -/
def lastBraceIdx (t : Text) : Option Nat :=
  (List.range t.length).reverse.find? (fun i => t[i]? = some '}')

/-- The text of the synthesized `on_destroyed` block. -/
def synthOnDestroyed (removeCode : Text) : Text :=
  "\n\ton_destroyed = \x7b".toList ++ removeCode ++ "\n\t\x7d".toList

/-- The `on_destroyed` step of `inject_on_built_hook`.  The presence test
is the plain substring check `'on_destroyed' not in raw_text`: when the
substring is absent a brand-new block is synthesized before the last `}`
(`rindex` raising, i.e. `none`, when there is no `}` at all); when the
substring is present, the snippet is spliced before the closing brace of
the first `on_destroyed = {` header — and when no such header matches (or
its block never closes), the text is returned with no snippet at all. -/
def inject_destroyed (raw : Text) (removeCode : Text) : Option Text :=
  if !hasSubstr raw "on_destroyed".toList then
    match lastBraceIdx raw with
    | none => none
    | some lb =>
      some (raw.take lb ++ synthOnDestroyed removeCode ++ "\n".toList ++ raw.drop lb)
  else
    match findHeader "on_destroyed".toList raw with
    | none => some raw
    | some (_, bp) =>
      match findCloseFrom (raw.drop bp) bp 0 with
      | none => some raw
      | some i => some (raw.take i ++ removeCode ++ "\n\t".toList ++ raw.drop i)

/-- `inject_on_built_hook(raw_text, building_name, list_name)`: rename
inline PMs, splice the tracking snippet into `on_built`, then handle
`on_destroyed`.  (`building_name` is accepted and unused, as in the
source.) -/
def inject_on_built_hook (raw : Text) (buildingName : String)
    (listName : String := "epbm_building_types") : Option Text :=
  let _ := buildingName
  inject_destroyed (inject_built (rename_upms raw) (add_code listName))
    (remove_code listName)

/-! ## Classifier (`classify`) -/

/-- `GOVERNMENT_BUILDINGS`: the static exclusion set (139 names). -/
def GOVERNMENT_BUILDINGS : List String :=
  ["ablaq_palace", "admiralty", "alhambra", "amsterdam_admiralty", "armory",
   "art_school", "arts_academy", "bailiff", "bajang_ratu",
   "barcelona_royal_shipyard", "barracks", "bastion",
   "bavarian_academy_of_sciences", "bey_fortress", "brethren_marsh",
   "calmecac", "camara_comptos", "cantonments", "castel_sant_angelo",
   "castle", "cawa_barracks", "chancery", "city_guard", "coastal_fort",
   "conscription_center", "copenhagen_dockyard", "dock", "dry_dock",
   "enderun_academy", "fortress", "fortezza_di_sant_andrea",
   "friesland_admiralty", "gallowglass_sept", "ghilman_barracks",
   "grand_shipyard", "great_enclosure", "great_hill_complex",
   "great_valley_complex", "hexamilion_wall", "house_of_parliament",
   "hsa_burgtor", "imperial_halic_shipyards", "janissary_barracks",
   "jurchen_barracks", "kastellet", "kilwan_shipwrights",
   "korean_gunnery_coastal_defense", "korean_gunnery_land_defense",
   "kremlin", "kronborg", "kurmina_headquarter", "kurultai",
   "mamluk_barracks", "naval_base", "naval_battery", "north_sea_shipyards",
   "oma_nizwa_fort", "order_headquarters", "ostrog", "peel_towers",
   "pirate_stronghold", "pirate_tavern", "pukara_building",
   "qalat_al_mashwar", "rahdar", "red_fort", "regimental_camp",
   "repaired_great_wall_of_china", "republican_assembly",
   "rotterdam_admiralty", "royal_academy_of_arts",
   "royal_atarazanas_seville", "royal_court", "royal_garden",
   "royal_society", "ruined_great_wall_of_china",
   "segovia_artillery_academy", "sergeantry", "shipyard", "sofa_barracks",
   "star_fort", "stockade", "supreme_court", "tambo", "telpochcalli",
   "the_bock_fortifications", "theodosian_walls", "thema_headquarters",
   "tower_of_belem", "training_fields", "uffizi", "venetian_arsenal",
   "venetian_palaces", "walls_of_benin", "walls_of_ston", "war_college",
   "warrior_temple", "west_friesland_admiralty", "zazzau_walls",
   "zeeland_admiralty", "zwinger",
   "ambras_castle", "belvedere_palace", "berlin_palace",
   "coastal_settlements", "construction_center", "counting_house",
   "doges_palace", "eghabho_nore_mansion", "el_escorial_palace",
   "forbidden_city", "fortress_church", "fortress_granary",
   "galley_barracks", "general_archive_of_simancas", "grand_apartment",
   "guich_garrison", "imperial_city_of_hue", "kalari", "kings_manor",
   "lieutenancy", "local_governor", "minting_office",
   "moscow_artillery_yard", "munich_residenz_founding", "naval_governor",
   "novodevichy_convent", "oma_falaj", "papal_archives",
   "protected_harbor", "quirinal_palace", "ribat", "ribeira_das_naus",
   "rock_of_monaco", "safaviyya_order_hall", "sanssouci",
   "schonbrunn_palace", "sco_palace_of_holyroodhouse", "seljuk_mint",
   "the_cipher_secretary", "versailles", "viceroyalty", "zhixian"]

/-- The cost vector of a production method: ordered `good -> amount` map.
Amounts are kept as their source token strings; the Python `float`
round-trip does not affect any classified property. -/
abbrev Goods := List (String × String)

/-- An externally declared production method, as built by
`parse_production_methods`. -/
structure PM : Type where
  goods : Goods
  no_upkeep : Bool
  has_output : Bool
  deriving DecidableEq

/-- An inline (`unique_production_methods`) PM, as built by
`parse_all_buildings`. -/
structure UPM : Type where
  goods : Goods
  has_output : Bool
  no_upkeep : Bool
  is_maintenance : Bool
  deriving DecidableEq

/-- A building record, as built by `parse_all_buildings` (the fields
`classify` reads). -/
structure Building : Type where
  estate : Option String
  is_foreign : Bool
  has_trade_capacity : Bool
  possible_pms : List String
  unique_pms : List (String × UPM)
  deriving DecidableEq

/-- Provenance tag of a winning PM: `'external' | 'inline'`. -/
inductive PMSource : Type
  | external : PMSource
  | inline : PMSource
  deriving DecidableEq

/-- One entry of the `qualifying` output list:
`(building_name, pm_name, pm_source, is_trade, is_foreign)`. -/
structure QEntry : Type where
  name : String
  pm : String
  src : PMSource
  is_trade : Bool
  is_foreign : Bool
  deriving DecidableEq

/-- The profile registry `all_pm_goods`: ordered `pm_name -> goods`. -/
abbrev Registry := List (String × Goods)

/-- The external-reference loop of `classify`: walk `possible_pms` in
declared order; skip dangling names, `no_upkeep`/output PMs and empty cost
vectors; on the first eligible PM with `best` still unset, set `best` and
register the PM's goods.  Later eligible PMs are skipped by the
`best_pm is None` guard. -/
def extLoop (pms : List (String × PM)) :
    List String → Option (String × PMSource) → Registry →
      Option (String × PMSource) × Registry
  | [], best, reg => (best, reg)
  | pmName :: rest, best, reg =>
    match lookupD pms pmName with
    | none => extLoop pms rest best reg
    | some pm =>
      if pm.no_upkeep || pm.has_output then extLoop pms rest best reg
      else if pm.goods.isEmpty then extLoop pms rest best reg
      else
        match best with
        | none =>
          extLoop pms rest (some (pmName, PMSource.external))
            (dictSet reg pmName pm.goods)
        | some b => extLoop pms rest (some b) reg

/-- The inline-PM loop of `classify`: walk `unique_pms` in declared order;
skip PMs not tagged `category = building_maintenance`, `no_upkeep`/output
PMs and empty cost vectors; the `best_pm is None` guard again makes the
first eligible one (if any, and only if no external reference already won)
the winner and registers it. -/
def inlineLoop :
    List (String × UPM) → Option (String × PMSource) → Registry →
      Option (String × PMSource) × Registry
  | [], best, reg => (best, reg)
  | (pmName, pmData) :: rest, best, reg =>
    if !pmData.is_maintenance then inlineLoop rest best reg
    else if pmData.no_upkeep || pmData.has_output then inlineLoop rest best reg
    else if pmData.goods.isEmpty then inlineLoop rest best reg
    else
      match best with
      | none =>
        inlineLoop rest (some (pmName, PMSource.inline))
          (dictSet reg pmName pmData.goods)
      | some b => inlineLoop rest (some b) reg

/-- The per-building body of `classify`'s main loop, threading the
registry. -/
def classifyAux (pms : List (String × PM)) :
    List (String × Building) → Registry → List QEntry × Registry
  | [], reg => ([], reg)
  | (bname, b) :: rest, reg =>
    if GOVERNMENT_BUILDINGS.contains bname then classifyAux pms rest reg
    else if b.estate.isSome then classifyAux pms rest reg
    else
      let r1 := extLoop pms b.possible_pms none reg
      let r2 := inlineLoop b.unique_pms r1.1 r1.2
      match r2.1 with
      | some bp =>
        let rq := classifyAux pms rest r2.2
        (⟨bname, bp.1, bp.2, b.has_trade_capacity && !b.is_foreign,
            b.is_foreign⟩ :: rq.1, rq.2)
      | none => classifyAux pms rest r2.2

/-- `classify(buildings, pms)`: the qualifying list and the profile
registry `all_pm_goods`. -/
def classify (buildings : List (String × Building))
    (pms : List (String × PM)) : List QEntry × Registry :=
  classifyAux pms buildings []

/-! ## Init-effects emitter (`generate_init_effects`) -/

/-- Stable insertion by building name: the new entry goes after every
already-placed entry whose name is `≤` its own, as in Python's stable
`sorted`. -/
def insertByName (e : QEntry) : List QEntry → List QEntry
  | [] => [e]
  | x :: xs => if x.name ≤ e.name then x :: insertByName e xs else e :: x :: xs

/-- `sorted(qualifying, key=lambda x: x[0])`: stable sort by building
name (Python string comparison = code-point lexicographic). -/
def sortQualifying (q : List QEntry) : List QEntry :=
  q.foldr insertByName []

/-- Stable insertion for plain strings. -/
def insertStr (s : String) : List String → List String
  | [] => [s]
  | x :: xs => if x ≤ s then x :: insertStr s xs else s :: x :: xs

/-- `sorted(all_pm_goods.keys())`. -/
def sortedPmNames (reg : Registry) : List String :=
  (reg.map Prod.fst).foldr insertStr []

/-- Tracking-list identifier for a qualifying entry. -/
def listNameOf (e : QEntry) : String :=
  if e.is_trade then "epbm_trade_types" else "epbm_building_types"

/-- The dispatch loop of `generate_init_effects` part 2
(`epbm_init_building`): iterate the sorted qualifying entries with a
`first` flag; foreign entries are skipped before the flag is consumed;
the first emitted branch is headed `if`, every later one `else_if`. -/
def dispatchGo : List QEntry → Bool → List String
  | [], _ => []
  | e :: rest, first =>
    if e.is_foreign then dispatchGo rest first
    else
      let keyword := if first then "if" else "else_if"
      ("\t" ++ keyword ++ " = \x7b")
        :: ("\t\tlimit = \x7b building_type = building_type:" ++ e.name ++ " \x7d")
        :: ("\t\tlocation = \x7b add_to_variable_list = \x7b name = "
              ++ listNameOf e ++ " target = scope:epbm_bldg \x7d \x7d")
        :: "\t\x7d"
        :: dispatchGo rest false

/-- Lines of the `epbm_init_building` declaration (part 2 of
`generate_init_effects`). -/
def initDispatchLines (q : List QEntry) : List String :=
  ["# Init dispatch: add building instance to location list for pre-existing buildings",
   "# Scope: building (called via every_buildings_in_location)",
   "# Trade buildings go to epbm_trade_types, regular to epbm_building_types.",
   "# Foreign and government buildings are skipped (no location list).",
   "epbm_init_building = \x7b",
   "\tsave_temporary_scope_as = epbm_bldg"]
  ++ dispatchGo (sortQualifying q) true
  ++ ["\x7d", ""]

/-- The per-PM creation lines of part 1 (`create_international_organization`
blocks, amounts emitted from their source strings). -/
def ioCreationLines (reg : Registry) : List String :=
  (sortedPmNames reg).flatMap (fun pmName =>
    let goods := (lookupD reg pmName).getD []
    let goodsStr := String.intercalate ", "
      (goods.map (fun p => p.1 ++ " " ++ p.2))
    ("\t\t# PM: " ++ pmName ++ " (" ++ goodsStr ++ ")")
      :: "\t\tcreate_international_organization = \x7b"
      :: ("\t\t\ttype = international_organization_type:epbm_pm_" ++ pmName)
      :: (goods.map (fun p =>
            "\t\t\tadd_to_variable_map = \x7b name = epbm_goods key = goods:"
              ++ p.1 ++ " value = " ++ p.2 ++ " \x7d"))
      ++ ["\t\t\x7d"])

/-- The parent-map lines of part 1 (one per qualifying building, foreign
entries included, with their trailing tag comment). -/
def parentMapLines (q : List QEntry) : List String :=
  (sortQualifying q).map (fun e =>
    let tag := if e.is_foreign then "  # (foreign)"
      else if e.is_trade then "  # (trade)" else ""
    "\tadd_to_global_variable_map = \x7b name = epbm_profiles key = building_type:"
      ++ e.name ++ " value = international_organization:epbm_pm_" ++ e.pm
      ++ " \x7d" ++ tag)

/-- Lines of the `epbm_stamp_globals` declaration (part 1 of
`generate_init_effects`). -/
def stampGlobalsLines (q : List QEntry) (reg : Registry) : List String :=
  ["# Create PM international organizations and populate their goods maps,",
   "# then stamp global parent map epbm_profiles (building_type -> IO scope).",
   "# Called once at game start.",
   "epbm_stamp_globals = \x7b",
   "\t# Clean up any existing IOs and stale global state from previous init",
   "\tevery_in_global_list = \x7b",
   "\t\tvariable = epbm_all_ios",
   "\t\tdestroy_international_organization = prev",
   "\t\x7d",
   "\tclear_global_variable_list = epbm_all_ios",
   "\tclear_global_variable_map = epbm_profiles",
   "",
   "\t# Create all PM IOs and populate goods maps inside creation scope",
   "\trandom_country = \x7b",
   "\t\tlimit = \x7b is_real_country = yes \x7d"]
  ++ ioCreationLines reg
  ++ ["\t\x7d", "", "\t# Parent map: building_type -> IO scope"]
  ++ parentMapLines q
  ++ ["", "\t# Global list of all PM IOs (for monthly cache clearing)"]
  ++ (sortedPmNames reg).map (fun pmName =>
       "\tadd_to_global_variable_list = \x7b name = epbm_all_ios target = international_organization:epbm_pm_"
         ++ pmName ++ " \x7d")
  ++ ["\x7d", ""]

/-- `generate_init_effects(qualifying, all_pm_goods, buildings)` (the
`buildings` argument is unused in the source). -/
def generate_init_effects (q : List QEntry) (reg : Registry) : String :=
  String.intercalate "\n"
    (["# Auto-generated by tools/generate_building_hooks.py",
      "# IO creation + parent profile lookup + init dispatch",
      ""]
      ++ stampGlobalsLines q reg
      ++ initDispatchLines q)

/-! ## Derived definitions used in claim statements -/

/-- The token sequence of `k=v₁ k=v₂ …` (the same key assigned each value
in turn). -/
def kvToks (k : String) (vs : List String) : List String :=
  vs.flatMap (fun v => [k, "=", v])

/-- The stored value the duplicate-key rule should produce for a key
assigned the scalar values `vs` in order: a bare scalar for a single
occurrence, an ordered list from the second occurrence on. -/
def promoteVal (vs : List String) : Value :=
  match vs with
  | [v] => Value.scalar v
  | vs => Value.repeated (vs.map Value.scalar)

/-! ## Parser lemmas -/

theorem getLast?_of_suffix {rest toks : List String} (h : rest <:+ toks)
    (hne : rest ≠ []) : rest.getLast? = toks.getLast? := by
  obtain ⟨p, rfl⟩ := h
  rw [List.getLast?_append]
  have hs : rest.getLast?.isSome := List.getLast?_isSome.mpr hne
  obtain ⟨a, ha⟩ := Option.isSome_iff_exists.mp hs
  rw [ha]
  rfl

theorem lastNe_of_suffix {rest toks : List String} (h : rest <:+ toks)
    (hlast : toks.getLast? ≠ some "=") : rest.getLast? ≠ some "=" := by
  by_cases hne : rest = []
  · subst hne; simp
  · rw [getLast?_of_suffix h hne]; exact hlast

/-- Totality of the block-body loop: when the final token is not `=`, the
parse succeeds for any sufficient fuel and returns a suffix of its input
(so malformed content never aborts the whole run, only a trailing `=`
does). -/
theorem pbb_total : ∀ (n : Nat) (toks : List String) (acc : Doc),
    toks.length < n → toks.getLast? ≠ some "=" →
    ∃ d rest, pbb n toks acc = some (d, rest) ∧ rest <:+ toks := by
  intro n
  induction n with
  | zero => intro toks acc h _; omega
  | succ n ih =>
    intro toks acc hlen hlast
    match toks with
    | [] => exact ⟨acc, [], rfl, List.nil_suffix⟩
    | key :: rest =>
      by_cases hk : key = "\x7d"
      · subst hk
        exact ⟨acc, rest, by simp [pbb], List.suffix_cons _ _⟩
      · match rest with
        | [] =>
          obtain ⟨d, r, hr, hsuf⟩ := ih [] (storeDup acc key Value.flag)
            (by simp at hlen ⊢; omega) (by simp)
          have hr0 : r = [] := List.eq_nil_of_suffix_nil hsuf
          subst hr0
          exact ⟨d, [], by simp [pbb, hk, hr], List.nil_suffix⟩
        | t1 :: rest2 =>
          by_cases h1 : t1 = "="
          · subst h1
            match rest2 with
            | [] =>
              exfalso
              apply hlast
              simp [List.getLast?_cons_cons]
            | t2 :: rest3 =>
              have hlast3 : rest3.getLast? ≠ some "=" := by
                match rest3 with
                | [] => simp
                | r :: rs =>
                  intro hc
                  apply hlast
                  simpa [List.getLast?_cons_cons] using hc
              by_cases h2 : t2 = "\x7b"
              · subst h2
                obtain ⟨val, rest4, h4, hsuf4⟩ := ih rest3 []
                  (by simp at hlen ⊢; omega) hlast3
                have hlast4 : rest4.getLast? ≠ some "=" :=
                  lastNe_of_suffix hsuf4 hlast3
                obtain ⟨d, rest5, h5, hsuf5⟩ := ih rest4
                  (storeDup acc key (Value.block val))
                  (by have := hsuf4.length_le; simp at hlen ⊢; omega) hlast4
                refine ⟨d, rest5, by simp [pbb, hk, h4, h5], ?_⟩
                exact (hsuf5.trans hsuf4).trans
                  ((List.suffix_cons _ _).trans
                    ((List.suffix_cons _ _).trans (List.suffix_cons _ _)))
              · obtain ⟨d, rest5, h5, hsuf5⟩ := ih rest3
                  (storeDup acc key (Value.scalar t2))
                  (by simp at hlen ⊢; omega) hlast3
                refine ⟨d, rest5, by simp [pbb, hk, h2, h5], ?_⟩
                exact hsuf5.trans ((List.suffix_cons _ _).trans
                  ((List.suffix_cons _ _).trans (List.suffix_cons _ _)))
          · have hlast2 : (t1 :: rest2).getLast? ≠ some "=" := by
              intro hc
              apply hlast
              simpa [List.getLast?_cons_cons] using hc
            obtain ⟨d, rest5, h5, hsuf5⟩ := ih (t1 :: rest2)
              (storeDup acc key Value.flag)
              (by simp at hlen ⊢; omega) hlast2
            refine ⟨d, rest5, by simp [pbb, hk, h1, h5], ?_⟩
            exact hsuf5.trans (List.suffix_cons _ _)

/-- Totality of the top-level loop under the same side condition. -/
theorem ptop_total : ∀ (n : Nat) (toks : List String) (acc : Doc),
    toks.length < n → toks.getLast? ≠ some "=" →
    ∃ d, ptop n toks acc = some d := by
  intro n
  induction n with
  | zero => intro toks acc h _; omega
  | succ n ih =>
    intro toks acc hlen hlast
    match toks with
    | [] => exact ⟨acc, rfl⟩
    | key :: rest =>
      match rest with
      | [] =>
        obtain ⟨d, hd⟩ := ih [] (storeDup acc key Value.flag)
          (by simp at hlen ⊢; omega) (by simp)
        exact ⟨d, by simp [ptop, hd]⟩
      | t1 :: rest2 =>
        by_cases h1 : t1 = "="
        · subst h1
          match rest2 with
          | [] =>
            exfalso
            apply hlast
            simp [List.getLast?_cons_cons]
          | t2 :: rest3 =>
            have hlast3 : rest3.getLast? ≠ some "=" := by
              match rest3 with
              | [] => simp
              | r :: rs =>
                intro hc
                apply hlast
                simpa [List.getLast?_cons_cons] using hc
            by_cases h2 : t2 = "\x7b"
            · subst h2
              obtain ⟨val, rest4, h4, hsuf4⟩ := pbb_total n rest3 []
                (by simp at hlen ⊢; omega) hlast3
              have hlast4 : rest4.getLast? ≠ some "=" :=
                lastNe_of_suffix hsuf4 hlast3
              obtain ⟨d, h5⟩ := ih rest4 (storeDup acc key (Value.block val))
                (by have := hsuf4.length_le; simp at hlen ⊢; omega) hlast4
              exact ⟨d, by simp [ptop, h4, h5]⟩
            · obtain ⟨d, h5⟩ := ih rest3 (storeDup acc key (Value.scalar t2))
                (by simp at hlen ⊢; omega) hlast3
              exact ⟨d, by simp [ptop, h2, h5]⟩
        · have hlast2 : (t1 :: rest2).getLast? ≠ some "=" := by
            intro hc
            apply hlast
            simpa [List.getLast?_cons_cons] using hc
          obtain ⟨d, h5⟩ := ih (t1 :: rest2) (storeDup acc key Value.flag)
            (by simp at hlen ⊢; omega) hlast2
          exact ⟨d, by simp [ptop, h1, h5]⟩

/-- The claim's failing input: a key whose `=` is the last token makes
`parse_file` raise `IndexError` (`val = toks[idx]` out of range) instead of
returning a Document, so the parser is not total on malformed input. -/
theorem claim_C6_counterexample : parse_file_toks ["a", "="] = none := rfl

/-- C6 (amended): for every token sequence whose final token is not `=`,
the parser returns a Document without error — unmatched braces and bare
keys are recovered locally and never abort the run; only a trailing `=`
after a key raises. -/
theorem claim_C6_parser_recovery (toks : List String)
    (h : toks.getLast? ≠ some "=") : (parse_file_toks toks).isSome := by
  obtain ⟨d, hd⟩ := ptop_total (toks.length + 1) toks [] (by omega) h
  simp [parse_file_toks, hd]

/-- Witness for C6: a malformed sequence (stray braces, bare keys) that
still parses. -/
theorem claim_C6_witness :
    (parse_file_toks ["a", "\x7b", "x", "\x7d", "b", "=", "1"]).isSome :=
  claim_C6_parser_recovery ["a", "\x7b", "x", "\x7d", "b", "=", "1"] (by decide)

/-- The claim's failing behavior: the top-level loop does not stop at an
unmatched `CloseBrace` — it stores `"}"` as a bare key, contradicting
"never turned into a stored key". -/
theorem claim_C7_counterexample :
    parse_file_toks ["\x7d"] = some [("\x7d", Value.flag)] := rfl

/-- C7 (amended): inside `parse_block`, parsing stops at the first
unmatched `CloseBrace` (consumed, ending the scope with no stored key and
no underflow error) or at end of input; the top-level `parse_file` loop,
by contrast, has no `CloseBrace` case and stores a stray `}` as a bare
key. -/
theorem claim_C7_close_brace_scope :
    (∀ (rest : List String) (acc : Doc),
        parse_block_body ("\x7d" :: rest) acc = some (acc, rest)) ∧
    (∀ acc : Doc, parse_block_body [] acc = some (acc, [])) ∧
    parse_file_toks ["\x7d"] = some [("\x7d", Value.flag)] := by
  refine ⟨fun rest acc => ?_, fun acc => rfl, rfl⟩
  simp [parse_block_body, pbb]

/-- C10: when the line-anchored header for the entity matches (at `s`,
with its brace at `bp`) but the depth count started there never returns to
zero before end of input, `read_raw_building_text` returns `none` — no
truncated or partial span. -/
theorem claim_C10_unterminated_notfound (t0 name : Text) (s bp : Nat)
    (hs : findAnchoredHeader name (strip_bom t0) = some s)
    (hbp : findBraceFrom (strip_bom t0) s = some bp)
    (hcl : findCloseFrom ((strip_bom t0).drop bp) bp 0 = none) :
    read_raw_building_text t0 name = none := by
  simp only [read_raw_building_text, hs, hbp, hcl]

/-- Witness for C10: an unterminated block is reported as `NotFound`. -/
theorem claim_C10_witness :
    read_raw_building_text "foo = \x7b".toList "foo".toList = none :=
  claim_C10_unterminated_notfound _ _ 0 6 rfl rfl rfl

/-! ## Duplicate-key promotion (C4) -/

theorem kvToks_length (k : String) (vs : List String) :
    (kvToks k vs).length = 3 * vs.length := by
  induction vs with
  | nil => rfl
  | cons v vs ih => simp [kvToks] at ih ⊢; omega

theorem fold_store_repeated (k : String) :
    ∀ (vs : List String) (l : List Value),
      vs.foldl (fun a v => storeDup a k (Value.scalar v)) [(k, Value.repeated l)]
        = [(k, Value.repeated (l ++ vs.map Value.scalar))] := by
  intro vs
  induction vs with
  | nil => intro l; simp
  | cons v vs ih =>
    intro l
    have h1 : storeDup [(k, Value.repeated l)] k (Value.scalar v)
        = [(k, Value.repeated (l ++ [Value.scalar v]))] := by
      simp [storeDup, lookupD, dictSet]
    simp only [List.foldl_cons, h1, ih, List.map_cons, List.append_assoc,
      List.singleton_append]

theorem fold_store_nil (k : String) :
    ∀ vs : List String, vs ≠ [] →
      vs.foldl (fun a v => storeDup a k (Value.scalar v)) [] = [(k, promoteVal vs)] := by
  intro vs hne
  match vs with
  | [v] => simp [storeDup, lookupD, promoteVal]
  | v1 :: v2 :: rest =>
    have h1 : storeDup ([] : Doc) k (Value.scalar v1) = [(k, Value.scalar v1)] := rfl
    have h2 : storeDup [(k, Value.scalar v1)] k (Value.scalar v2)
        = [(k, Value.repeated [Value.scalar v1, Value.scalar v2])] := by
      simp [storeDup, lookupD, dictSet]
    simp only [List.foldl_cons, h1, h2, fold_store_repeated, promoteVal,
      List.map_cons]
    rfl

theorem pbb_kv (k : String) (hk : k ≠ "\x7d") :
    ∀ (vs : List String) (n : Nat) (acc : Doc), (∀ v ∈ vs, v ≠ "\x7b") →
      3 * vs.length + 1 ≤ n →
      pbb n (kvToks k vs ++ ["\x7d"]) acc
        = some (vs.foldl (fun a v => storeDup a k (Value.scalar v)) acc, []) := by
  intro vs
  induction vs with
  | nil =>
    intro n acc _ hn
    match n, hn with
    | m + 1, _ => simp [kvToks, pbb]
  | cons v vs ih =>
    intro n acc hv hn
    simp only [List.length_cons] at hn
    match n, hn with
    | m + 1, _ =>
      have hkv : kvToks k (v :: vs) ++ ["\x7d"]
          = k :: "=" :: v :: (kvToks k vs ++ ["\x7d"]) := by
        simp [kvToks]
      rw [hkv]
      have hveq : v ≠ "\x7b" := hv v (List.mem_cons_self v vs)
      simp only [pbb, if_neg hk, if_pos rfl, if_neg hveq]
      rw [ih m (storeDup acc k (Value.scalar v))
        (fun w hw => hv w (List.mem_cons_of_mem v hw)) (by omega)]
      simp

/-- C4: parsing `a=1 a=2 a=3` inside a block yields the single key `a`
bound to the ordered list `["1","2","3"]`; and in general, for a key
assigned scalar values `vs` in order inside a block, the first occurrence
stores a bare scalar, the second converts storage to an ordered list, and
every later occurrence appends — the block parses to exactly
`[(k, promoteVal vs)]`. -/
theorem claim_C4_duplicate_promotion :
    (parse_block_body ["a", "=", "1", "a", "=", "2", "a", "=", "3", "\x7d"] []
        = some ([("a", Value.repeated
            [Value.scalar "1", Value.scalar "2", Value.scalar "3"])], [])) ∧
    (∀ (k : String) (vs : List String), k ≠ "\x7d" → (∀ v ∈ vs, v ≠ "\x7b") →
        vs ≠ [] →
        parse_block_body (kvToks k vs ++ ["\x7d"]) []
          = some ([(k, promoteVal vs)], [])) := by
  refine ⟨rfl, fun k vs hk hv hne => ?_⟩
  rw [parse_block_body,
    pbb_kv k hk vs ((kvToks k vs ++ ["\x7d"]).length + 1) [] hv
      (by simp [kvToks_length]),
    fold_store_nil k vs hne]

/-- Witness for C4 at a fresh concrete input. -/
theorem claim_C4_witness :
    parse_block_body (kvToks "b" ["1", "2"] ++ ["\x7d"]) []
      = some ([("b", Value.repeated [Value.scalar "1", Value.scalar "2"])], []) :=
  claim_C4_duplicate_promotion.2 "b" ["1", "2"] (by decide) (by decide) (by decide)

/-! ## Tokenizer quoted strings (C8) -/

/-- A quote body the scanner consumes whole: no unescaped `"` (a `\` must
be followed by a character, which is consumed blindly). -/
def okQuote : Text → Bool
  | [] => true
  | c :: rest =>
    if c = '"' then false
    else if c = '\\' then
      match rest with
      | [] => false
      | _ :: rest' => okQuote rest'
    else okQuote rest

theorem scanT_quot : ∀ (content : Text) (acc : List Char) (rest : Text),
    okQuote content = true →
    scanT (content ++ '"' :: rest) (.quot acc)
      = String.mk (acc.reverse ++ content) :: scanT rest .norm
  | [], acc, rest, _ => by simp [scanT]
  | c :: content', acc, rest, h => by
    by_cases hq : c = '"'
    · subst hq
      rw [okQuote.eq_def] at h
      simp at h
    · by_cases hb : c = '\\'
      · subst hb
        match content' with
        | [] => exact absurd h (by decide)
        | d :: content'' =>
          have h'' : okQuote content'' = true := by
            rw [okQuote.eq_def] at h
            simpa using h
          have ih := scanT_quot content'' (d :: '\\' :: acc) rest h''
          have s1 : scanT (('\\' :: d :: content'') ++ '"' :: rest) (.quot acc)
              = scanT (content'' ++ '"' :: rest) (.quot (d :: '\\' :: acc)) := by
            simp [scanT]
          rw [s1, ih]
          simp
      · have h' : okQuote content' = true := by
          rw [okQuote.eq_def] at h
          simpa [hq, hb] using h
        have ih := scanT_quot content' (c :: acc) rest h'
        have s1 : scanT ((c :: content') ++ '"' :: rest) (.quot acc)
            = scanT (content' ++ '"' :: rest) (.quot (c :: acc)) := by
          simp [scanT, hq, hb]
        rw [s1, ih]
        simp

/-- The claim's failing input: the tokenizer yields a quoted string as its
bare content with no tag, so tokenizing `"{"` produces the very same token
stream as tokenizing `{`, and the Block Parser then treats the quoted
brace as an `OpenBrace` — in `a = "{" b = 1` the quoted brace opens a
block that swallows `b = 1`. -/
theorem claim_C8_counterexample :
    tokenize "\"\x7b\"".toList = tokenize "\x7b".toList ∧
    parse_file_toks (tokenize "a = \"\x7b\" b = 1".toList)
      = some [("a", Value.block [("b", Value.scalar "1")])] :=
  ⟨rfl, rfl⟩

/-- C8 (amended): a quoted string's token is its content text, running
from the character after the opening `"` to the next unescaped `"` (a
backslash and the character it escapes are kept); the token carries no
tag, so it is indistinguishable from the token of the same bare text. -/
theorem claim_C8_quote_scan (content rest : Text) (h : okQuote content = true) :
    scanT ('"' :: (content ++ '"' :: rest)) .norm
      = String.mk content :: scanT rest .norm := by
  have h0 : scanT ('"' :: (content ++ '"' :: rest)) .norm
      = scanT (content ++ '"' :: rest) (.quot []) := by
    simp [scanT, isSpaceTok]
  rw [h0, scanT_quot content [] rest h]
  simp

/-- Witness for C8: the quoted-brace content is scanned into the single
token `{`. -/
theorem claim_C8_witness :
    scanT ('"' :: (['\x7b'] ++ '"' :: [])) TMode.norm = [String.mk ['\x7b']] :=
  claim_C8_quote_scan ['\x7b'] [] rfl

/-! ## Locator brace balance (C2, C10) -/

/-- Depth contribution of one character. -/
def braceDelta (c : Char) : Int :=
  if c = '{' then 1 else if c = '}' then -1 else 0

/-- Signed brace count of a text: `#'{' - #'}'`. -/
def braceSum (t : Text) : Int :=
  (t.map braceDelta).sum

/-- Every prefix has at least as many `{` as `}` (braces properly
nested). -/
def prefixBalanced (t : Text) : Bool :=
  (List.range (t.length + 1)).all (fun n => decide (0 ≤ braceSum (t.take n)))

theorem braceSum_append (a b : Text) :
    braceSum (a ++ b) = braceSum a + braceSum b := by
  simp [braceSum]

theorem braceSum_cons (c : Char) (t : Text) :
    braceSum (c :: t) = braceDelta c + braceSum t := by
  simp [braceSum]

theorem prefixBalanced_le (t : Text) (h : prefixBalanced t = true) :
    ∀ n, 0 ≤ braceSum (t.take n) := by
  intro n
  by_cases hn : n ≤ t.length
  · have := List.all_eq_true.mp h n
      (List.mem_range.mpr (by omega))
    simpa using this
  · have := List.all_eq_true.mp h t.length
      (List.mem_range.mpr (by omega))
    rw [List.take_of_length_le (by omega)]
    rw [List.take_of_length_le (le_refl _)] at this
    simpa using this

/-- If the running depth is positive and cannot stay positive to the end
of the suffix, the scan finds a closing position. -/
theorem findCloseFrom_exists : ∀ (l : Text) (i : Nat) (d : Int),
    1 ≤ d → d + braceSum l ≤ 0 → ∃ j, findCloseFrom l i d = some j := by
  intro l
  induction l with
  | nil =>
    intro i d hd hsum
    simp [braceSum] at hsum
    omega
  | cons c rest ih =>
    intro i d hd hsum
    rw [braceSum_cons] at hsum
    by_cases ho : c = '{'
    · subst ho
      obtain ⟨j, hj⟩ := ih (i + 1) (d + 1) (by omega)
        (by simp [braceDelta] at hsum; omega)
      exact ⟨j, by simp [findCloseFrom, hj]⟩
    · by_cases hc : c = '}'
      · subst hc
        by_cases hz : d - 1 = 0
        · exact ⟨i, by simp [findCloseFrom, hz]⟩
        · obtain ⟨j, hj⟩ := ih (i + 1) (d - 1) (by omega)
            (by simp [braceDelta] at hsum; omega)
          exact ⟨j, by simp [findCloseFrom, hz, hj]⟩
      · obtain ⟨j, hj⟩ := ih (i + 1) d hd
          (by simp [braceDelta, ho, hc] at hsum; omega)
        exact ⟨j, by simp [findCloseFrom, ho, hc, hj]⟩

/-- What a successful close-scan guarantees: the close is in range, holds
`}`, the depth through it returns to zero, and the depth stays at least 1
at every earlier point of the scan. -/
theorem findCloseFrom_spec : ∀ (l : Text) (i : Nat) (d : Int) (j : Nat),
    1 ≤ d → findCloseFrom l i d = some j →
    i ≤ j ∧ j - i < l.length ∧ l[j - i]? = some '}' ∧
      d + braceSum (l.take (j - i + 1)) = 0 ∧
      ∀ m, m ≤ j - i → 1 ≤ d + braceSum (l.take m) := by
  intro l
  induction l with
  | nil => intro i d j _ h; simp [findCloseFrom] at h
  | cons c rest ih =>
    intro i d j hd h
    by_cases ho : c = '{'
    · subst ho
      rw [show findCloseFrom ('{' :: rest) i d
          = findCloseFrom rest (i + 1) (d + 1) from by simp [findCloseFrom]] at h
      obtain ⟨h1, h2, h3, h4, h5⟩ := ih (i + 1) (d + 1) j (by omega) h
      have hji : j - i = (j - (i + 1)) + 1 := by omega
      refine ⟨by omega, by simp; omega, ?_, ?_, ?_⟩
      · rw [hji]; simpa using h3
      · rw [hji]
        simp only [List.take_succ_cons, braceSum_cons]
        simp [braceDelta] at h4 ⊢
        omega
      · intro m hm
        match m with
        | 0 => simpa [braceSum] using hd
        | m' + 1 =>
          have := h5 m' (by omega)
          simp only [List.take_succ_cons, braceSum_cons]
          simp [braceDelta] at this ⊢
          omega
    · by_cases hc : c = '}'
      · subst hc
        by_cases hz : d - 1 = 0
        · rw [show findCloseFrom ('}' :: rest) i d = some i from by
            simp [findCloseFrom, hz]] at h
          cases h
          refine ⟨le_refl _, by simp, by simp, ?_, ?_⟩
          · simp only [Nat.sub_self, zero_add, List.take_succ_cons,
              List.take_zero, braceSum_cons]
            simp [braceDelta, braceSum]
            omega
          · intro m hm
            have : m = 0 := by omega
            subst this
            simpa [braceSum] using hd
        · rw [show findCloseFrom ('}' :: rest) i d
            = findCloseFrom rest (i + 1) (d - 1) from by
              simp [findCloseFrom, hz]] at h
          obtain ⟨h1, h2, h3, h4, h5⟩ := ih (i + 1) (d - 1) j (by omega) h
          have hji : j - i = (j - (i + 1)) + 1 := by omega
          refine ⟨by omega, by simp; omega, ?_, ?_, ?_⟩
          · rw [hji]; simpa using h3
          · rw [hji]
            simp only [List.take_succ_cons, braceSum_cons]
            simp [braceDelta] at h4 ⊢
            omega
          · intro m hm
            match m with
            | 0 => simpa [braceSum] using hd
            | m' + 1 =>
              have := h5 m' (by omega)
              simp only [List.take_succ_cons, braceSum_cons]
              simp [braceDelta] at this ⊢
              omega
      · rw [show findCloseFrom (c :: rest) i d
          = findCloseFrom rest (i + 1) d from by simp [findCloseFrom, ho, hc]] at h
        obtain ⟨h1, h2, h3, h4, h5⟩ := ih (i + 1) d j hd h
        have hji : j - i = (j - (i + 1)) + 1 := by omega
        refine ⟨by omega, by simp; omega, ?_, ?_, ?_⟩
        · rw [hji]; simpa using h3
        · rw [hji]
          simp only [List.take_succ_cons, braceSum_cons]
          simp [braceDelta, ho, hc] at h4 ⊢
          omega
        · intro m hm
          match m with
          | 0 => simpa [braceSum] using hd
          | m' + 1 =>
            have := h5 m' (by omega)
            simp only [List.take_succ_cons, braceSum_cons]
            simp [braceDelta, ho, hc] at this ⊢
            omega

theorem consumeBrace_cons (c : Char) (rest : Text) :
    consumeBrace (c :: rest)
      = if c = '{' then some 1
        else if isSpaceRe c then (consumeBrace rest).map (· + 1)
        else none := rfl

theorem consumeEqBrace_cons (c : Char) (rest : Text) :
    consumeEqBrace (c :: rest)
      = if c = '=' then (consumeBrace rest).map (· + 1)
        else if isSpaceRe c then (consumeEqBrace rest).map (· + 1)
        else none := rfl

theorem consumeBrace_spec : ∀ (l : Text) (m : Nat),
    consumeBrace l = some m → 1 ≤ m ∧ l[m - 1]? = some '{' := by
  intro l
  induction l with
  | nil => intro m h; simp [consumeBrace] at h
  | cons c rest ih =>
    intro m h
    rw [consumeBrace_cons] at h
    by_cases ho : c = '{'
    · simp [ho] at h
      exact ⟨by omega, by simp [← h, ho]⟩
    · simp [ho] at h
      by_cases hs : isSpaceRe c = true
      · simp [hs] at h
        obtain ⟨m', hm', rfl⟩ := h
        obtain ⟨h1, h2⟩ := ih m' hm'
        refine ⟨by omega, ?_⟩
        rw [show m' + 1 - 1 = (m' - 1) + 1 from by omega]
        simpa using h2
      · simp [hs] at h

theorem consumeEqBrace_spec : ∀ (l : Text) (m : Nat),
    consumeEqBrace l = some m → 1 ≤ m ∧ l[m - 1]? = some '{' := by
  intro l
  induction l with
  | nil => intro m h; simp [consumeEqBrace] at h
  | cons c rest ih =>
    intro m h
    rw [consumeEqBrace_cons] at h
    by_cases he : c = '='
    · simp [he] at h
      obtain ⟨m', hm', rfl⟩ := h
      obtain ⟨h1, h2⟩ := consumeBrace_spec rest m' hm'
      refine ⟨by omega, ?_⟩
      rw [show m' + 1 - 1 = (m' - 1) + 1 from by omega]
      simpa using h2
    · simp [he] at h
      by_cases hs : isSpaceRe c = true
      · simp [hs] at h
        obtain ⟨m', hm', rfl⟩ := h
        obtain ⟨h1, h2⟩ := ih m' hm'
        refine ⟨by omega, ?_⟩
        rw [show m' + 1 - 1 = (m' - 1) + 1 from by omega]
        simpa using h2
      · simp [hs] at h

/-- A matched header has its `{` at the returned index. -/
theorem headerAt_spec (lit t : Text) (i b : Nat)
    (h : headerAt lit t i = some b) : i ≤ b ∧ t[b]? = some '{' := by
  rw [headerAt] at h
  by_cases hp : lit.isPrefixOf (t.drop i) = true
  · simp [hp] at h
    match hm : consumeEqBrace (t.drop (i + lit.length)) with
    | none => rw [hm] at h; simp at h
    | some m =>
      rw [hm] at h
      simp at h
      obtain ⟨h1, h2⟩ := consumeEqBrace_spec _ _ hm
      have hb : b = i + lit.length + m - 1 := h.symm
      have hget : t[i + lit.length + (m - 1)]? = some '{' := by
        rw [← List.getElem?_drop]
        exact h2
      refine ⟨by omega, ?_⟩
      rw [hb, show i + lit.length + m - 1 = i + lit.length + (m - 1) from by omega]
      exact hget
  · simp [hp] at h

theorem findAnchoredHeader_spec (name t : Text) (s : Nat)
    (h : findAnchoredHeader name t = some s) :
    ∃ b, headerAt name t s = some b := by
  have hp := List.find?_some h
  simp only [decide_eq_true_eq] at hp
  exact Option.isSome_iff_exists.mp hp.2

theorem findBraceFrom_isSome (t : Text) (s b : Nat) (hb : s ≤ b)
    (hget : t[b]? = some '{') : ∃ bp, findBraceFrom t s = some bp := by
  apply Option.isSome_iff_exists.mp
  apply List.find?_isSome.mpr
  refine ⟨b, List.mem_range.mpr (List.getElem?_eq_some_iff.mp hget).1, ?_⟩
  simp [hb, hget]

theorem findBraceFrom_spec (t : Text) (s bp : Nat)
    (h : findBraceFrom t s = some bp) : s ≤ bp ∧ t[bp]? = some '{' := by
  have := List.find?_some h
  simpa using this

/-- The claim's failing input: the text `}` + newline + `foo = {` has
equal counts of `{` and `}`, no quotes at all, and a line-anchored header
match for `foo` — yet the locator returns `NotFound` because the depth
count from the matched `{` never returns to zero.  Equal brace counts
alone therefore do not guarantee a span. -/
theorem claim_C2_counterexample :
    braceSum "\x7d\nfoo = \x7b".toList = 0 ∧
    "\x7d\nfoo = \x7b".toList.all (fun c => c ≠ '"') = true ∧
    (findAnchoredHeader "foo".toList "\x7d\nfoo = \x7b".toList).isSome = true ∧
    read_raw_building_text "\x7d\nfoo = \x7b".toList "foo".toList = none :=
  ⟨by decide, by decide, by decide, rfl⟩

/-- C2 (amended): `read_raw_building_text` returns `NotFound` when the
line-anchored header never matches; and for properly nested input (equal
counts of `{` and `}` overall AND no prefix with more `}` than `{`), a
matched header always yields the span from the match start through the
`}` at which the quote-agnostic depth count from the matched `{` first
returns to zero, the depth staying strictly positive at every point
strictly between the `{` and that `}`. -/
theorem claim_C2_locator_brace_balance :
    (∀ (t0 name : Text), findAnchoredHeader name (strip_bom t0) = none →
        read_raw_building_text t0 name = none) ∧
    (∀ (t0 name : Text) (s : Nat),
        findAnchoredHeader name (strip_bom t0) = some s →
        prefixBalanced (strip_bom t0) = true →
        braceSum (strip_bom t0) = 0 →
        ∃ bp j,
          findBraceFrom (strip_bom t0) s = some bp ∧
          findCloseFrom ((strip_bom t0).drop bp) bp 0 = some j ∧
          read_raw_building_text t0 name
            = some (((strip_bom t0).drop s).take (j + 1 - s)) ∧
          (strip_bom t0)[j]? = some '}' ∧
          braceSum (((strip_bom t0).drop bp).take (j + 1 - bp)) = 0 ∧
          (∀ m, 0 < m → m ≤ j - bp →
            1 ≤ braceSum (((strip_bom t0).drop bp).take m))) := by
  constructor
  · intro t0 name h
    simp only [read_raw_building_text, h]
  · intro t0 name s hs hbal hzero
    obtain ⟨b, hb⟩ := findAnchoredHeader_spec name (strip_bom t0) s hs
    obtain ⟨hsb, hbget⟩ := headerAt_spec name (strip_bom t0) s b hb
    obtain ⟨bp, hbp⟩ := findBraceFrom_isSome (strip_bom t0) s b hsb hbget
    obtain ⟨hsbp, hbpget⟩ := findBraceFrom_spec (strip_bom t0) s bp hbp
    have hbplen : bp < (strip_bom t0).length :=
      (List.getElem?_eq_some_iff.mp hbpget).1
    have hdrop : (strip_bom t0).drop bp
        = '{' :: (strip_bom t0).drop (bp + 1) := by
      rw [List.drop_eq_getElem_cons hbplen]
      obtain ⟨hh, hv⟩ := List.getElem?_eq_some_iff.mp hbpget
      rw [hv]
    have hsplit : braceSum ((strip_bom t0).take bp)
        + braceSum ((strip_bom t0).drop bp) = braceSum (strip_bom t0) := by
      rw [← braceSum_append, List.take_append_drop]
    have htake : 0 ≤ braceSum ((strip_bom t0).take bp) :=
      prefixBalanced_le (strip_bom t0) hbal bp
    have hrest : 1 + braceSum ((strip_bom t0).drop (bp + 1)) ≤ 0 := by
      rw [hdrop, braceSum_cons] at hsplit
      simp [braceDelta] at hsplit
      linarith [hsplit, htake, hzero]
    obtain ⟨j, hj⟩ := findCloseFrom_exists ((strip_bom t0).drop (bp + 1))
      (bp + 1) 1 (le_refl 1) hrest
    have hscan : findCloseFrom ((strip_bom t0).drop bp) bp 0 = some j := by
      rw [hdrop]
      simpa [findCloseFrom] using hj
    obtain ⟨hj1, hj2, hj3, hj4, hj5⟩ := findCloseFrom_spec
      ((strip_bom t0).drop (bp + 1)) (bp + 1) 1 j (le_refl 1) hj
    refine ⟨bp, j, hbp, hscan, ?_, ?_, ?_, ?_⟩
    · simp only [read_raw_building_text, hs, hbp, hscan]
    · rw [List.getElem?_drop] at hj3
      rw [show bp + 1 + (j - (bp + 1)) = j from by omega] at hj3
      exact hj3
    · rw [hdrop, show j + 1 - bp = (j - (bp + 1) + 1) + 1 from by omega,
        List.take_succ_cons, braceSum_cons]
      simp [braceDelta]
      linarith [hj4]
    · intro m hm0 hmle
      rw [hdrop]
      match m, hm0 with
      | m' + 1, _ =>
        rw [List.take_succ_cons, braceSum_cons]
        have hm' := hj5 m' (by omega)
        simp [braceDelta]
        linarith [hm']

/-- Witness for C2: a name with no anchored header match is reported
`NotFound`. -/
theorem claim_C2_witness :
    read_raw_building_text "bar = \x7b \x7d".toList "foo".toList = none :=
  claim_C2_locator_brace_balance.1 "bar = \x7b \x7d".toList "foo".toList rfl

/-! ## Hook injector `on_destroyed` handling (C3) -/

/-- The claim's failing input: a raw span that merely *mentions*
`on_destroyed` (here in the key `on_destroyed_x`) without containing an
`on_destroyed = {` sub-block.  The substring presence test sends the
injector down the splice path, the header regex finds nothing, and the
output contains **no** untracking snippet at all — not exactly one. -/
theorem claim_C3_counterexample :
    inject_on_built_hook "b = \x7b\n\ton_destroyed_x = yes\n\x7d".toList
        "b" "epbm_building_types"
      = some "b = \x7b\n\ton_destroyed_x = yes\n\x7d".toList ∧
    hasSubstr "b = \x7b\n\ton_destroyed_x = yes\n\x7d".toList
      (remove_code "epbm_building_types") = false :=
  ⟨rfl, by decide⟩

/-- C3 (amended): for a raw span untouched by the renaming and `on_built`
phases, the `on_destroyed` handling is decided by the plain substring test:
if `on_destroyed` does not occur, a brand-new sub-block holding exactly the
untracking snippet is spliced in just before the subject's final `}` (and
the call raises, i.e. returns `none`, when there is no `}` at all); if the
substring occurs and an `on_destroyed = {` header matches with a closing
brace, the snippet is spliced immediately before that closing brace; but if
the substring occurs without a matching header (or its block never
closes), the span is returned unchanged, with no snippet inserted. -/
theorem claim_C3_injector_on_destroyed (raw : Text) (bname listName : String)
    (h1 : rename_upms raw = raw)
    (h2 : inject_built raw (add_code listName) = raw) :
    (hasSubstr raw "on_destroyed".toList = false →
      (∀ lb, lastBraceIdx raw = some lb →
          inject_on_built_hook raw bname listName
            = some (raw.take lb ++ synthOnDestroyed (remove_code listName)
                ++ "\n".toList ++ raw.drop lb)) ∧
      (lastBraceIdx raw = none →
          inject_on_built_hook raw bname listName = none)) ∧
    (hasSubstr raw "on_destroyed".toList = true →
      (findHeader "on_destroyed".toList raw = none →
          inject_on_built_hook raw bname listName = some raw) ∧
      (∀ ms bp, findHeader "on_destroyed".toList raw = some (ms, bp) →
        (findCloseFrom (raw.drop bp) bp 0 = none →
            inject_on_built_hook raw bname listName = some raw) ∧
        (∀ j, findCloseFrom (raw.drop bp) bp 0 = some j →
            inject_on_built_hook raw bname listName
              = some (raw.take j ++ remove_code listName
                  ++ "\n\t".toList ++ raw.drop j)))) := by
  have hun : inject_on_built_hook raw bname listName
      = inject_destroyed raw (remove_code listName) := by
    rw [inject_on_built_hook, h1, h2]
  constructor
  · intro hno
    constructor
    · intro lb hlb
      rw [hun, inject_destroyed, hno]
      simp [hlb]
    · intro hlb
      rw [hun, inject_destroyed, hno]
      simp [hlb]
  · intro hyes
    constructor
    · intro hhd
      rw [hun, inject_destroyed, hyes]
      simp only [Bool.not_true, Bool.false_eq_true, if_false, hhd]
    · intro ms bp hhd
      constructor
      · intro hcl
        rw [hun, inject_destroyed, hyes]
        simp only [Bool.not_true, Bool.false_eq_true, if_false, hhd, hcl]
      · intro j hcl
        rw [hun, inject_destroyed, hyes]
        simp only [Bool.not_true, Bool.false_eq_true, if_false, hhd, hcl]

/-- Witness for C3: on a span with no `on_destroyed` substring, a fresh
sub-block with the snippet is inserted before the final `}`. -/
theorem claim_C3_witness :
    inject_on_built_hook "b = \x7b\n\tcost = 5\n\x7d".toList
        "b" "epbm_building_types"
      = some ("b = \x7b\n\tcost = 5\n\x7d".toList.take 16
          ++ synthOnDestroyed (remove_code "epbm_building_types")
          ++ "\n".toList ++ "b = \x7b\n\tcost = 5\n\x7d".toList.drop 16) :=
  ((claim_C3_injector_on_destroyed "b = \x7b\n\tcost = 5\n\x7d".toList
      "b" "epbm_building_types" rfl rfl).1 rfl).1 16 rfl

/-! ## Classifier lemmas (C1, C5) -/

/-- The key list of a registry/dictionary. -/
def keysOf (reg : List (String × α)) : List String :=
  reg.map Prod.fst

theorem dictSet_lookup_self (reg : List (String × α)) (k : String) (v : α) :
    lookupD (dictSet reg k v) k = some v := by
  induction reg with
  | nil => simp [dictSet, lookupD]
  | cons p rest ih =>
    obtain ⟨k', v'⟩ := p
    by_cases hk : k' = k
    · simp [dictSet, hk, lookupD]
    · simp [dictSet, hk, lookupD, ih]

theorem dictSet_keys_mem (reg : List (String × α)) (k : String) (v : α)
    (m : String) : m ∈ keysOf (dictSet reg k v) ↔ m ∈ keysOf reg ∨ m = k := by
  induction reg with
  | nil => simp [dictSet, keysOf]
  | cons p rest ih =>
    obtain ⟨k', v'⟩ := p
    by_cases hk : k' = k
    · subst hk
      simp [dictSet, keysOf]
      tauto
    · simp [dictSet, hk, keysOf] at ih ⊢
      tauto

theorem dictSet_keys_nodup (reg : List (String × α)) (k : String) (v : α)
    (h : (keysOf reg).Nodup) : (keysOf (dictSet reg k v)).Nodup := by
  induction reg with
  | nil => simp [dictSet, keysOf]
  | cons p rest ih =>
    obtain ⟨k', v'⟩ := p
    rw [show keysOf ((k', v') :: rest) = k' :: keysOf rest from rfl,
      List.nodup_cons] at h
    obtain ⟨h1, h2⟩ := h
    by_cases hk : k' = k
    · subst hk
      rw [show dictSet ((k', v') :: rest) k' v = (k', v) :: rest from by
        simp [dictSet]]
      rw [show keysOf ((k', v) :: rest) = k' :: keysOf rest from rfl,
        List.nodup_cons]
      exact ⟨h1, h2⟩
    · rw [show dictSet ((k', v') :: rest) k v
          = (k', v') :: dictSet rest k v from by simp [dictSet, hk]]
      rw [show keysOf ((k', v') :: dictSet rest k v)
          = k' :: keysOf (dictSet rest k v) from rfl, List.nodup_cons]
      refine ⟨?_, ih h2⟩
      intro hcon
      rcases (dictSet_keys_mem rest k v k').mp hcon with hm | hm
      · exact h1 hm
      · exact hk hm

/-- The external loop is inert once a winner is fixed: the `best_pm is
None` guard blocks both reassignment and registration. -/
theorem extLoop_some (pms : List (String × PM)) :
    ∀ (ps : List String) (b : String × PMSource) (reg : Registry),
      extLoop pms ps (some b) reg = (some b, reg) := by
  intro ps
  induction ps with
  | nil => intro b reg; rfl
  | cons p rest ih =>
    intro b reg
    rw [extLoop]
    cases hl : lookupD pms p with
    | none => exact ih b reg
    | some pm =>
      by_cases h1 : (pm.no_upkeep || pm.has_output) = true
      · simp [h1, ih]
      · by_cases h2 : pm.goods.isEmpty = true
        · simp [h1, h2, ih]
        · simp [h1, h2, ih]

/-- Likewise for the inline loop. -/
theorem inlineLoop_some :
    ∀ (ups : List (String × UPM)) (b : String × PMSource) (reg : Registry),
      inlineLoop ups (some b) reg = (some b, reg) := by
  intro ups
  induction ups with
  | nil => intro b reg; rfl
  | cons p rest ih =>
    intro b reg
    obtain ⟨pmName, pmData⟩ := p
    rw [inlineLoop]
    by_cases h0 : pmData.is_maintenance = true
    · by_cases h1 : (pmData.no_upkeep || pmData.has_output) = true
      · simp [h0, h1, ih]
      · by_cases h2 : pmData.goods.isEmpty = true
        · simp [h0, h1, h2, ih]
        · simp [h0, h1, h2, ih]
    · simp [h0, ih]

/-- Eligibility of an externally referenced PM, read off `classify`'s
skip conditions: the name resolves, upkeep is real, no output, non-empty
cost vector. -/
def eligibleExt (pms : List (String × PM)) (n : String) : Bool :=
  match lookupD pms n with
  | none => false
  | some pm => !(pm.no_upkeep || pm.has_output) && !pm.goods.isEmpty

/-- Eligibility of an inline PM: tagged `category = building_maintenance`,
upkeep real, no output, non-empty cost vector. -/
def eligibleInl (p : String × UPM) : Bool :=
  p.2.is_maintenance && !(p.2.no_upkeep || p.2.has_output) && !p.2.goods.isEmpty

/-- The goods the external loop registers for a winning name. -/
def goodsOfExt (pms : List (String × PM)) (n : String) : Goods :=
  match lookupD pms n with
  | none => []
  | some pm => pm.goods

/-- The external loop started with no winner computes the *first eligible
reference in declared order* and registers exactly its goods. -/
theorem extLoop_none (pms : List (String × PM)) :
    ∀ (ps : List String) (reg : Registry),
      extLoop pms ps none reg
        = match ps.find? (eligibleExt pms) with
          | none => (none, reg)
          | some n => (some (n, PMSource.external), dictSet reg n (goodsOfExt pms n)) := by
  intro ps
  induction ps with
  | nil => intro reg; rfl
  | cons p rest ih =>
    intro reg
    rw [extLoop]
    cases hl : lookupD pms p with
    | none =>
      have he : eligibleExt pms p = false := by simp [eligibleExt, hl]
      rw [List.find?_cons_of_neg _ (by simp [he]), ih]
    | some pm =>
      by_cases h1 : (pm.no_upkeep || pm.has_output) = true
      · have he : eligibleExt pms p = false := by simp [eligibleExt, hl, h1]
        rw [List.find?_cons_of_neg _ (by simp [he])]
        simp only [h1, if_true]
        exact ih reg
      · by_cases h2 : pm.goods.isEmpty = true
        · have he : eligibleExt pms p = false := by
            simp [eligibleExt, hl, h2]
          rw [List.find?_cons_of_neg _ (by simp [he])]
          simp only [h1, if_false, h2, if_true]
          exact ih reg
        · have he : eligibleExt pms p = true := by
            simp [eligibleExt, hl, h2]
            simpa using h1
          rw [List.find?_cons_of_pos _ (by simp [he])]
          simp only [h1, if_false, h2]
          simp only [Bool.false_eq_true, if_false]
          rw [extLoop_some]
          simp [goodsOfExt, hl]

/-- The inline loop started with no winner computes the first eligible
inline definition in declared order and registers exactly its goods. -/
theorem inlineLoop_none :
    ∀ (ups : List (String × UPM)) (reg : Registry),
      inlineLoop ups none reg
        = match ups.find? eligibleInl with
          | none => (none, reg)
          | some p => (some (p.1, PMSource.inline), dictSet reg p.1 p.2.goods) := by
  intro ups
  induction ups with
  | nil => intro reg; rfl
  | cons p rest ih =>
    intro reg
    obtain ⟨pmName, pmData⟩ := p
    rw [inlineLoop]
    by_cases h0 : pmData.is_maintenance = true
    · by_cases h1 : (pmData.no_upkeep || pmData.has_output) = true
      · have he : eligibleInl (pmName, pmData) = false := by
          simp [eligibleInl, h1]
        rw [List.find?_cons_of_neg _ (by simp [he])]
        simp only [h0, Bool.not_true, Bool.false_eq_true, if_false, h1, if_true]
        exact ih reg
      · by_cases h2 : pmData.goods.isEmpty = true
        · have he : eligibleInl (pmName, pmData) = false := by
            simp [eligibleInl, h2]
          rw [List.find?_cons_of_neg _ (by simp [he])]
          simp only [h0, Bool.not_true, Bool.false_eq_true, if_false, h1, h2, if_true]
          exact ih reg
        · have he : eligibleInl (pmName, pmData) = true := by
            simp [eligibleInl, h0, h2]
            simpa using h1
          rw [List.find?_cons_of_pos _ (by simp [he])]
          simp only [h0, Bool.not_true, Bool.false_eq_true, if_false, h1, h2, if_true]
          rw [inlineLoop_some]
    · have hm : pmData.is_maintenance = false := by simpa using h0
      have he : eligibleInl (pmName, pmData) = false := by
        simp [eligibleInl, hm]
      rw [List.find?_cons_of_neg _ (by simp [he])]
      simp only [hm, Bool.not_false, if_true]
      exact ih reg

theorem extLoop_reg_mono (pms : List (String × PM)) (ps : List String)
    (best : Option (String × PMSource)) (reg : Registry) (m : String)
    (h : m ∈ keysOf reg) : m ∈ keysOf (extLoop pms ps best reg).2 := by
  cases best with
  | some b => rw [extLoop_some]; exact h
  | none =>
    rw [extLoop_none]
    cases ps.find? (eligibleExt pms) with
    | none => exact h
    | some n => exact (dictSet_keys_mem reg n _ m).mpr (Or.inl h)

theorem inlineLoop_reg_mono (ups : List (String × UPM))
    (best : Option (String × PMSource)) (reg : Registry) (m : String)
    (h : m ∈ keysOf reg) : m ∈ keysOf (inlineLoop ups best reg).2 := by
  cases best with
  | some b => rw [inlineLoop_some]; exact h
  | none =>
    rw [inlineLoop_none]
    cases ups.find? eligibleInl with
    | none => exact h
    | some p => exact (dictSet_keys_mem reg p.1 _ m).mpr (Or.inl h)

theorem extLoop_reg_nodup (pms : List (String × PM)) (ps : List String)
    (best : Option (String × PMSource)) (reg : Registry)
    (h : (keysOf reg).Nodup) : (keysOf (extLoop pms ps best reg).2).Nodup := by
  cases best with
  | some b => rw [extLoop_some]; exact h
  | none =>
    rw [extLoop_none]
    cases ps.find? (eligibleExt pms) with
    | none => exact h
    | some n => exact dictSet_keys_nodup reg n _ h

theorem inlineLoop_reg_nodup (ups : List (String × UPM))
    (best : Option (String × PMSource)) (reg : Registry)
    (h : (keysOf reg).Nodup) : (keysOf (inlineLoop ups best reg).2).Nodup := by
  cases best with
  | some b => rw [inlineLoop_some]; exact h
  | none =>
    rw [inlineLoop_none]
    cases ups.find? eligibleInl with
    | none => exact h
    | some p => exact dictSet_keys_nodup reg p.1 _ h

/-- The spec-side selection rule, written from the claim's words: the
first eligible external reference in declared order wins; if none is
eligible, the first eligible inline `building_maintenance` definition in
declared order wins. -/
def specChoose (pms : List (String × PM)) (b : Building) :
    Option (String × PMSource) :=
  match b.possible_pms.find? (eligibleExt pms) with
  | some n => some (n, PMSource.external)
  | none => (b.unique_pms.find? eligibleInl).map (fun p => (p.1, PMSource.inline))

/-- The two loops of `classify` compute exactly the spec's first-match
rule, independent of the registry they thread. -/
theorem best2_eq_specChoose (pms : List (String × PM)) (b : Building)
    (reg : Registry) :
    (inlineLoop b.unique_pms (extLoop pms b.possible_pms none reg).1
      (extLoop pms b.possible_pms none reg).2).1 = specChoose pms b := by
  rw [extLoop_none, specChoose]
  cases b.possible_pms.find? (eligibleExt pms) with
  | some n => rw [inlineLoop_some]
  | none =>
    rw [inlineLoop_none]
    cases b.unique_pms.find? eligibleInl with
    | none => rfl
    | some p => rfl

/-- When the loops produce a winner, its name is a key of the resulting
registry. -/
theorem best2_mem (pms : List (String × PM)) (b : Building) (reg : Registry)
    (n : String) (s : PMSource)
    (h : (inlineLoop b.unique_pms (extLoop pms b.possible_pms none reg).1
        (extLoop pms b.possible_pms none reg).2).1 = some (n, s)) :
    n ∈ keysOf (inlineLoop b.unique_pms (extLoop pms b.possible_pms none reg).1
        (extLoop pms b.possible_pms none reg).2).2 := by
  rw [extLoop_none] at h ⊢
  cases hf : b.possible_pms.find? (eligibleExt pms) with
  | some n0 =>
    rw [hf] at h
    dsimp only at h ⊢
    rw [inlineLoop_some] at h ⊢
    have : n0 = n := by
      simpa using congrArg (fun o => Option.map Prod.fst o) h
    subst this
    exact (dictSet_keys_mem reg n0 _ n0).mpr (Or.inr rfl)
  | none =>
    rw [hf] at h
    dsimp only at h ⊢
    rw [inlineLoop_none] at h ⊢
    cases hg : b.unique_pms.find? eligibleInl with
    | none => rw [hg] at h; dsimp only at h; simp at h
    | some p =>
      rw [hg] at h
      dsimp only at h ⊢
      have : p.1 = n := by
        simpa using congrArg (fun o => Option.map Prod.fst o) h
      subst this
      exact (dictSet_keys_mem reg p.1 _ p.1).mpr (Or.inr rfl)

theorem classifyAux_reg_mono (pms : List (String × PM)) :
    ∀ (bs : List (String × Building)) (reg : Registry) (m : String),
      m ∈ keysOf reg → m ∈ keysOf (classifyAux pms bs reg).2 := by
  intro bs
  induction bs with
  | nil => intro reg m h; exact h
  | cons p rest ih =>
    intro reg m h
    obtain ⟨bname, b⟩ := p
    rw [classifyAux]
    by_cases hg : GOVERNMENT_BUILDINGS.contains bname = true
    · simp only [hg, if_true]
      exact ih reg m h
    · by_cases he : b.estate.isSome = true
      · simp only [hg, if_false, he, if_true]
        exact ih reg m h
      · simp only [hg, he, Bool.false_eq_true, if_false]
        have hmono : m ∈ keysOf (inlineLoop b.unique_pms
            (extLoop pms b.possible_pms none reg).1
            (extLoop pms b.possible_pms none reg).2).2 :=
          inlineLoop_reg_mono _ _ _ m (extLoop_reg_mono pms _ _ reg m h)
        cases hb : (inlineLoop b.unique_pms
            (extLoop pms b.possible_pms none reg).1
            (extLoop pms b.possible_pms none reg).2).1 with
        | some bp => simp only [hb]; exact ih _ m hmono
        | none => simp only [hb]; exact ih _ m hmono

theorem classifyAux_reg_nodup (pms : List (String × PM)) :
    ∀ (bs : List (String × Building)) (reg : Registry),
      (keysOf reg).Nodup → (keysOf (classifyAux pms bs reg).2).Nodup := by
  intro bs
  induction bs with
  | nil => intro reg h; exact h
  | cons p rest ih =>
    intro reg h
    obtain ⟨bname, b⟩ := p
    rw [classifyAux]
    by_cases hg : GOVERNMENT_BUILDINGS.contains bname = true
    · simp only [hg, if_true]
      exact ih reg h
    · by_cases he : b.estate.isSome = true
      · simp only [hg, if_false, he, if_true]
        exact ih reg h
      · simp only [hg, he, Bool.false_eq_true, if_false]
        have hnd : (keysOf (inlineLoop b.unique_pms
            (extLoop pms b.possible_pms none reg).1
            (extLoop pms b.possible_pms none reg).2).2).Nodup :=
          inlineLoop_reg_nodup _ _ _ (extLoop_reg_nodup pms _ _ reg h)
        cases hb : (inlineLoop b.unique_pms
            (extLoop pms b.possible_pms none reg).1
            (extLoop pms b.possible_pms none reg).2).1 with
        | some bp => simp only [hb]; exact ih _ hnd
        | none => simp only [hb]; exact ih _ hnd

theorem classifyAux_pm_mem (pms : List (String × PM)) :
    ∀ (bs : List (String × Building)) (reg : Registry) (e : QEntry),
      e ∈ (classifyAux pms bs reg).1 →
      e.pm ∈ keysOf (classifyAux pms bs reg).2 := by
  intro bs
  induction bs with
  | nil => intro reg e h; simp [classifyAux] at h
  | cons p rest ih =>
    intro reg e h
    obtain ⟨bname, b⟩ := p
    rw [classifyAux] at h ⊢
    by_cases hg : GOVERNMENT_BUILDINGS.contains bname = true
    · simp only [hg, if_true] at h ⊢
      exact ih reg e h
    · by_cases hest : b.estate.isSome = true
      · simp only [hg, if_false, hest, if_true] at h ⊢
        exact ih reg e h
      · simp only [hg, hest, Bool.false_eq_true, if_false] at h ⊢
        cases hb : (inlineLoop b.unique_pms
            (extLoop pms b.possible_pms none reg).1
            (extLoop pms b.possible_pms none reg).2).1 with
        | some bp =>
          simp only [hb] at h ⊢
          rcases List.mem_cons.mp h with he | he
          · subst he
            simp only []
            exact classifyAux_reg_mono pms rest _ bp.1
              (best2_mem pms b reg bp.1 bp.2 (by rw [hb]))
          · exact ih _ e he
        | none =>
          simp only [hb] at h ⊢
          exact ih _ e h

theorem classifyAux_names (pms : List (String × PM)) :
    ∀ (bs : List (String × Building)) (reg : Registry) (e : QEntry),
      e ∈ (classifyAux pms bs reg).1 → e.name ∈ bs.map Prod.fst := by
  intro bs
  induction bs with
  | nil => intro reg e h; simp [classifyAux] at h
  | cons p rest ih =>
    intro reg e h
    obtain ⟨bname, b⟩ := p
    rw [classifyAux] at h
    simp only [List.map_cons, List.mem_cons]
    by_cases hg : GOVERNMENT_BUILDINGS.contains bname = true
    · simp only [hg, if_true] at h
      exact Or.inr (ih reg e h)
    · by_cases hest : b.estate.isSome = true
      · simp only [hg, if_false, hest, if_true] at h
        exact Or.inr (ih reg e h)
      · simp only [hg, hest, Bool.false_eq_true, if_false] at h
        cases hb : (inlineLoop b.unique_pms
            (extLoop pms b.possible_pms none reg).1
            (extLoop pms b.possible_pms none reg).2).1 with
        | some bp =>
          simp only [hb] at h
          rcases List.mem_cons.mp h with he | he
          · subst he; exact Or.inl rfl
          · exact Or.inr (ih _ e he)
        | none =>
          simp only [hb] at h
          exact Or.inr (ih _ e h)

/-- The per-subject core of C1: with distinct building names, a subject
outside the exclusion set, with no estate marker and with an eligible
template, contributes exactly one qualifying entry, carrying the
first-match winner. -/
theorem classifyAux_filter (pms : List (String × PM)) (bname : String)
    (b : Building) (n : String) (s : PMSource)
    (hgov : GOVERNMENT_BUILDINGS.contains bname = false)
    (hest : b.estate = none) (hch : specChoose pms b = some (n, s)) :
    ∀ (bs : List (String × Building)) (reg : Registry),
      (bs.map Prod.fst).Nodup → (bname, b) ∈ bs →
      (classifyAux pms bs reg).1.filter (fun e => e.name == bname)
        = [⟨bname, n, s, b.has_trade_capacity && !b.is_foreign, b.is_foreign⟩] := by
  intro bs
  induction bs with
  | nil => intro reg _ hmem; simp at hmem
  | cons p rest ih =>
    intro reg hnd hmem
    obtain ⟨bname', b'⟩ := p
    simp only [List.map_cons, List.nodup_cons] at hnd
    obtain ⟨hnotin, hnd'⟩ := hnd
    rcases List.mem_cons.mp hmem with hhead | htail
    · cases hhead
      rw [classifyAux]
      simp only [hgov, Bool.false_eq_true, if_false]
      have hest' : b.estate.isSome = false := by simp [hest]
      simp only [hest', Bool.false_eq_true, if_false]
      have hbest := (best2_eq_specChoose pms b reg).trans hch
      simp only [hbest]
      rw [List.filter_cons_of_pos (by simp)]
      have hrest : (classifyAux pms rest
          (inlineLoop b.unique_pms (extLoop pms b.possible_pms none reg).1
            (extLoop pms b.possible_pms none reg).2).2).1.filter
          (fun e => e.name == bname) = [] := by
        rw [List.filter_eq_nil_iff]
        intro e he
        have := classifyAux_names pms rest _ e he
        simp only [beq_iff_eq]
        intro hc
        exact hnotin (hc ▸ this)
      rw [hrest]
    · have hbnin : bname ∈ rest.map Prod.fst :=
        List.mem_map.mpr ⟨(bname, b), htail, rfl⟩
      have hne : bname' ≠ bname := fun hc => hnotin (hc ▸ hbnin)
      rw [classifyAux]
      by_cases hg' : GOVERNMENT_BUILDINGS.contains bname' = true
      · simp only [hg', if_true]
        exact ih reg hnd' htail
      · by_cases hest2 : b'.estate.isSome = true
        · simp only [hg', if_false, hest2, if_true]
          exact ih reg hnd' htail
        · simp only [hg', hest2, Bool.false_eq_true, if_false]
          cases hb : (inlineLoop b'.unique_pms
              (extLoop pms b'.possible_pms none reg).1
              (extLoop pms b'.possible_pms none reg).2).1 with
          | some bp =>
            simp only [hb]
            rw [List.filter_cons_of_neg (by simp [hne])]
            exact ih _ hnd' htail
          | none =>
            simp only [hb]
            exact ih _ hnd' htail

/-- C5 (amended): every winning template name is a key of the profile
registry and the registry's keys are pairwise distinct (each name appears
exactly once); but registration is a plain dictionary assignment, so a
later encounter of the same name re-stores its goods — the stored vector
is the **last** writer's, not the first's. -/
theorem claim_C5_registry_keys :
    (∀ (bs : List (String × Building)) (pms : List (String × PM)),
        (keysOf (classify bs pms).2).Nodup ∧
        ∀ e ∈ (classify bs pms).1, e.pm ∈ keysOf (classify bs pms).2) ∧
    (∀ (reg : Registry) (k : String) (g : Goods),
        lookupD (dictSet reg k g) k = some g) := by
  refine ⟨fun bs pms => ⟨?_, fun e he => ?_⟩, dictSet_lookup_self⟩
  · exact classifyAux_reg_nodup pms bs [] (by simp [keysOf])
  · exact classifyAux_pm_mem pms bs [] e he

/-- The claim's failing configuration: two subjects each win with an
inline template named `p` but with different cost vectors; the second
registration overwrites the first, so "first writer wins" fails — with
both subjects present the registry holds the second subject's vector,
while with only the first subject it holds the first's. -/
theorem claim_C5_counterexample :
    (classify
        [("b1", ⟨none, false, false, [],
            [("p", ⟨[("g", "1")], false, false, true⟩)]⟩),
         ("b2", ⟨none, false, false, [],
            [("p", ⟨[("g", "2")], false, false, true⟩)]⟩)] []).2
      = [("p", [("g", "2")])] ∧
    (classify
        [("b1", ⟨none, false, false, [],
            [("p", ⟨[("g", "1")], false, false, true⟩)]⟩)] []).2
      = [("p", [("g", "1")])] :=
  ⟨rfl, rfl⟩

/-- Witness for C5 at a concrete classification pass. -/
theorem claim_C5_witness :
    (keysOf (classify
        [("b1", ⟨none, false, false, [],
            [("p", ⟨[("g", "1")], false, false, true⟩)]⟩)] []).2).Nodup ∧
    lookupD (dictSet ([("p", [("g", "1")])] : Registry) "p" [("g", "2")]) "p"
      = some [("g", "2")] :=
  ⟨(claim_C5_registry_keys.1 _ _).1,
    claim_C5_registry_keys.2 [("p", [("g", "1")])] "p" [("g", "2")]⟩

/-- C1 (confirmed): for every subject not in the exclusion set, without an
estate marker and with at least one eligible template (`specChoose`
returns a winner, following the claim's rule: first eligible external
reference in declared order, else first eligible inline
`building_maintenance` definition in declared order), the classifier
emits exactly one qualifying entry for the subject, carrying exactly that
winner. -/
theorem claim_C1_classifier_assignment (bs : List (String × Building))
    (pms : List (String × PM)) (bname : String) (b : Building)
    (n : String) (s : PMSource)
    (hnd : (bs.map Prod.fst).Nodup) (hmem : (bname, b) ∈ bs)
    (hgov : GOVERNMENT_BUILDINGS.contains bname = false)
    (hest : b.estate = none) (hch : specChoose pms b = some (n, s)) :
    (classify bs pms).1.filter (fun e => e.name == bname)
      = [⟨bname, n, s, b.has_trade_capacity && !b.is_foreign, b.is_foreign⟩] :=
  classifyAux_filter pms bname b n s hgov hest hch bs [] hnd hmem

/-- Witness for C1: one subject with an ineligible first external
reference (no goods), an eligible second one, and an eligible inline
definition — the second external reference wins. -/
theorem claim_C1_witness :
    (classify
        [("mill", ⟨none, false, false, ["pm_bad", "pm_good"],
            [("pm_inline", ⟨[("g", "3")], false, false, true⟩)]⟩)]
        [("pm_bad", ⟨[], false, false⟩),
         ("pm_good", ⟨[("grain", "2.0")], false, false⟩)]).1.filter
        (fun e => e.name == "mill")
      = [⟨"mill", "pm_good", PMSource.external, false, false⟩] :=
  claim_C1_classifier_assignment _ _ "mill"
    ⟨none, false, false, ["pm_bad", "pm_good"],
      [("pm_inline", ⟨[("g", "3")], false, false, true⟩)]⟩
    "pm_good" PMSource.external (by decide) (by decide) (by decide) rfl rfl

/-! ## Init-dispatch emitter (C9) -/

/-- One emitted branch of `epbm_init_building`, for a given keyword. -/
def mkBranch (kw : String) (e : QEntry) : List String :=
  [("\t" ++ kw ++ " = \x7b"),
   ("\t\tlimit = \x7b building_type = building_type:" ++ e.name ++ " \x7d"),
   ("\t\tlocation = \x7b add_to_variable_list = \x7b name = "
      ++ listNameOf e ++ " target = scope:epbm_bldg \x7d \x7d"),
   "\t\x7d"]

/-- The spec-side branch list: one branch per entry, the first headed by
`if` and every later one by `else_if`. -/
def dispatchBlocks : List QEntry → Bool → List String
  | [], _ => []
  | e :: rest, first =>
    mkBranch (if first then "if" else "else_if") e ++ dispatchBlocks rest false

theorem dispatchGo_eq_blocks :
    ∀ (l : List QEntry) (first : Bool),
      dispatchGo l first
        = dispatchBlocks (l.filter (fun e => !e.is_foreign)) first := by
  intro l
  induction l with
  | nil => intro first; rfl
  | cons e rest ih =>
    intro first
    by_cases hf : e.is_foreign = true
    · rw [dispatchGo, List.filter_cons_of_neg (by simp [hf])]
      simp only [hf, if_true]
      exact ih first
    · rw [dispatchGo, List.filter_cons_of_pos (by simp [hf]), dispatchBlocks]
      simp only [hf, Bool.false_eq_true, if_false]
      rw [ih false]
      rfl

theorem dispatchBlocks_false_flatMap :
    ∀ (l : List QEntry),
      dispatchBlocks l false = l.flatMap (mkBranch "else_if") := by
  intro l
  induction l with
  | nil => rfl
  | cons e rest ih => rw [dispatchBlocks, ih]; rfl

theorem insertByName_perm (e : QEntry) :
    ∀ l : List QEntry, (insertByName e l).Perm (e :: l) := by
  intro l
  induction l with
  | nil => exact List.Perm.refl _
  | cons x xs ih =>
    rw [insertByName]
    by_cases hle : x.name ≤ e.name
    · simp only [hle, if_true]
      exact (ih.cons x).trans (List.Perm.swap e x xs)
    · simp only [hle, if_false]
      exact List.Perm.refl _

theorem insertByName_sorted (e : QEntry) :
    ∀ l : List QEntry,
      l.Pairwise (fun a b => a.name ≤ b.name) →
      (insertByName e l).Pairwise (fun a b => a.name ≤ b.name) := by
  intro l
  induction l with
  | nil => intro _; exact List.pairwise_singleton _ _
  | cons x xs ih =>
    intro h
    rw [List.pairwise_cons] at h
    obtain ⟨hx, hxs⟩ := h
    rw [insertByName]
    by_cases hle : x.name ≤ e.name
    · simp only [hle, if_true]
      rw [List.pairwise_cons]
      refine ⟨?_, ih hxs⟩
      intro y hy
      have hy' : y ∈ e :: xs := (insertByName_perm e xs).mem_iff.mp hy
      rcases List.mem_cons.mp hy' with rfl | hmem
      · exact hle
      · exact hx y hmem
    · simp only [hle, if_false]
      rw [List.pairwise_cons]
      refine ⟨?_, List.pairwise_cons.mpr ⟨hx, hxs⟩⟩
      intro y hy
      have hex : e.name ≤ x.name := le_of_lt (lt_of_not_le hle)
      rcases List.mem_cons.mp hy with rfl | hmem
      · exact hex
      · exact le_trans hex (hx y hmem)

theorem sortQualifying_perm (q : List QEntry) : (sortQualifying q).Perm q := by
  induction q with
  | nil => exact List.Perm.refl _
  | cons e rest ih =>
    rw [sortQualifying, List.foldr_cons]
    exact (insertByName_perm e _).trans (ih.cons e)

theorem sortQualifying_sorted (q : List QEntry) :
    (sortQualifying q).Pairwise (fun a b => a.name ≤ b.name) := by
  induction q with
  | nil => simp [sortQualifying]
  | cons e rest ih =>
    rw [sortQualifying, List.foldr_cons]
    exact insertByName_sorted e _ ih

/-- C9: the second generated declaration's branch list is exactly one
branch per qualified non-foreign subject (foreign subjects contribute
none), the subjects taken in sorted name order — sorted and a permutation
of the non-foreign qualifying entries — with the first branch headed by
an unconditional `if` and every later branch by `else_if`; in particular
a single non-foreign subject yields exactly one `if` branch and no
`else_if`. -/
theorem claim_C9_init_dispatch (q : List QEntry) :
    (dispatchGo (sortQualifying q) true
       = dispatchBlocks ((sortQualifying q).filter (fun e => !e.is_foreign)) true) ∧
    (∀ (e : QEntry) (rest : List QEntry),
        dispatchBlocks (e :: rest) true
          = mkBranch "if" e ++ rest.flatMap (mkBranch "else_if")) ∧
    ((sortQualifying q).Pairwise (fun a b => a.name ≤ b.name)) ∧
    ((sortQualifying q).filter (fun e => !e.is_foreign)).Perm
      (q.filter (fun e => !e.is_foreign)) ∧
    (∀ e : QEntry, (sortQualifying q).filter (fun e => !e.is_foreign) = [e] →
        dispatchGo (sortQualifying q) true = mkBranch "if" e) := by
  refine ⟨dispatchGo_eq_blocks _ true, ?_, sortQualifying_sorted q, ?_, ?_⟩
  · intro e rest
    rw [dispatchBlocks, dispatchBlocks_false_flatMap, if_pos rfl]
  · exact (sortQualifying_perm q).filter _
  · intro e he
    rw [dispatchGo_eq_blocks _ true, he, dispatchBlocks, dispatchBlocks]
    simp

/-- Witness for C9: one non-foreign trade subject yields the single `if`
branch. -/
theorem claim_C9_witness :
    dispatchGo (sortQualifying [⟨"s", "T", PMSource.external, true, false⟩]) true
      = mkBranch "if" ⟨"s", "T", PMSource.external, true, false⟩ :=
  (claim_C9_init_dispatch [⟨"s", "T", PMSource.external, true, false⟩]).2.2.2.2
    ⟨"s", "T", PMSource.external, true, false⟩ rfl

end EPBM
